import Mathlib

/-!
Verification development for the kg-extractor worker.

Strings are modelled as `List Char` (one element per code point); `String`
wrappers are provided where the source-level API takes strings.  JavaScript
semantics that the embedded functions rely on (`\s`, `\w`, `trim`,
`replace(/\s+/g, ' ')`, truthiness of strings, `localeCompare` under
code-point collation, `Array.prototype.sort`) are embedded explicitly below.
-/

/-- Character class of the JavaScript regular-expression escape `\s`
(WhiteSpace ∪ LineTerminator, as used by `trim` as well). -/
def isJsSpace (c : Char) : Bool :=
  c = ' ' || c = '\t' || c = '\n' || c = '\r' || c = '\u000b' || c = '\u000c' ||
  c = '\u00a0' || c = '\u1680' || ('\u2000' ≤ c && c ≤ '\u200a') ||
  c = '\u2028' || c = '\u2029' || c = '\u202f' || c = '\u205f' ||
  c = '\u3000' || c = '\ufeff'

/-- Character class of the JavaScript regular-expression escape `\w`
(ASCII word characters, patterns are compiled without the unicode flag). -/
def isWordChar (c : Char) : Bool :=
  ('a' ≤ c && c ≤ 'z') || ('A' ≤ c && c ≤ 'Z') || ('0' ≤ c && c ≤ '9') || c = '_'

/-- Single-character lowercasing, modelling `String.prototype.toLowerCase`
on the ASCII range (simple case mapping). -/
def lowerChar (c : Char) : Char :=
  if 65 ≤ c.toNat ∧ c.toNat ≤ 90 then Char.ofNat (c.toNat + 32) else c

theorem char_toNat_ofNat_of_valid {n : Nat} (h : n.isValidChar) :
    (Char.ofNat n).toNat = n := by
  rw [Char.ofNat, dif_pos h]; rfl

theorem lowerChar_toNat_of_upper {c : Char} (h : 65 ≤ c.toNat ∧ c.toNat ≤ 90) :
    (lowerChar c).toNat = c.toNat + 32 := by
  have hv : Nat.isValidChar (c.toNat + 32) := Or.inl (by omega)
  simp only [lowerChar, if_pos h]
  exact char_toNat_ofNat_of_valid hv

theorem lowerChar_of_not_upper {c : Char} (h : ¬ (65 ≤ c.toNat ∧ c.toNat ≤ 90)) :
    lowerChar c = c := by
  simp only [lowerChar, if_neg h]

theorem lowerChar_idem (c : Char) : lowerChar (lowerChar c) = lowerChar c := by
  by_cases h : 65 ≤ c.toNat ∧ c.toNat ≤ 90
  · have ht := lowerChar_toNat_of_upper h
    exact lowerChar_of_not_upper (by omega)
  · rw [lowerChar_of_not_upper h, lowerChar_of_not_upper h]

/-- Leading-whitespace removal (half of `String.prototype.trim`). -/
def trimLeft (l : List Char) : List Char := l.dropWhile isJsSpace

/-- Trailing-whitespace removal (other half of `String.prototype.trim`). -/
def trimRight (l : List Char) : List Char := ((l.reverse).dropWhile isJsSpace).reverse

/-- Model of `String.prototype.trim`. -/
def jsTrim (l : List Char) : List Char := trimRight (trimLeft l)

/-- Model of `replace(/\s+/g, ' ')`: every maximal run of whitespace becomes
one single space.  Written structurally (emit the space at the end of a run)
so that the kernel can evaluate it. -/
def collapseWs : List Char → List Char
  | [] => []
  | c :: cs =>
    if isJsSpace c then
      match cs with
      | [] => [' ']
      | d :: _ => if isJsSpace d then collapseWs cs else ' ' :: collapseWs cs
    else c :: collapseWs cs

/-- Characters kept by `replace(/[^\w\s-]/g, '')`. -/
def keepChar (c : Char) : Bool := isWordChar c || isJsSpace c || c = '-'

/-- Model of `replace(/[^\w\s-]/g, '')`. -/
def stripPunct (l : List Char) : List Char := l.filter keepChar

/-- Embedding of `normalizeLabel` (src/src/normalize.ts): lowercase, trim,
strip characters that are neither word characters, whitespace nor hyphen,
collapse whitespace runs, final trim. -/
def normalizeLabelL (l : List Char) : List Char :=
  jsTrim (collapseWs (stripPunct (jsTrim (l.map lowerChar))))

/-- String-level `normalizeLabel`, as exported by src/src/normalize.ts. -/
def normalizeLabel (s : String) : String := (normalizeLabelL s.data).asString

/-- Head of the list is not whitespace (vacuously true for the empty list). -/
def headNotWs : List Char → Bool
  | [] => true
  | d :: _ => !isJsSpace d

/-- Whitespace in the list is already collapsed: every whitespace character
is a single space and is not followed by another whitespace character. -/
def wsTidy : List Char → Bool
  | [] => true
  | c :: cs => (!(isJsSpace c) || (c = ' ' && headNotWs cs)) && wsTidy cs

theorem wsTidy_tail {c : Char} {cs : List Char} (h : wsTidy (c :: cs)) : wsTidy cs := by
  simp only [wsTidy, Bool.and_eq_true] at h
  exact h.2

theorem collapseWs_eq_self {l : List Char} (h : wsTidy l = true) : collapseWs l = l := by
  induction l with
  | nil => rfl
  | cons c cs ih =>
    have hcs := wsTidy_tail h
    simp only [wsTidy, Bool.and_eq_true, Bool.or_eq_true, Bool.not_eq_true',
      decide_eq_true_eq] at h
    by_cases hws : isJsSpace c
    · rcases h.1 with h1 | h1
      · simp [hws] at h1
      · have hc : c = ' ' := h1.1
        cases cs with
        | nil => simp [collapseWs, hws, hc]
        | cons d ds =>
          have hd : isJsSpace d = false := by
            have := h1.2; simpa [headNotWs] using this
          have hstep : collapseWs (c :: d :: ds) = ' ' :: collapseWs (d :: ds) := by
            simp [collapseWs, hws, hd]
          rw [hstep, ih hcs, hc]
    · have hstep : collapseWs (c :: cs) = c :: collapseWs cs := by
        simp [collapseWs, hws]
      rw [hstep, ih hcs]

theorem wsTidy_collapseWs (l : List Char) : wsTidy (collapseWs l) = true := by
  induction l with
  | nil => rfl
  | cons c cs ih =>
    by_cases hws : isJsSpace c
    · cases cs with
      | nil => simp [collapseWs, hws]; rfl
      | cons d ds =>
        by_cases hd : isJsSpace d
        · simpa [collapseWs, hws, hd] using ih
        · have hexp : collapseWs (d :: ds) = d :: collapseWs ds := by
            simp [collapseWs, hd]
          have ih2 : wsTidy (d :: collapseWs ds) = true := hexp ▸ ih
          simp only [wsTidy, Bool.and_eq_true] at ih2
          simp [collapseWs, hws, hd, wsTidy, headNotWs, ih2.1, ih2.2]
    · have hexp : collapseWs (c :: cs) = c :: collapseWs cs := by
        simp [collapseWs, hws]
      rw [hexp]
      simp only [wsTidy, Bool.and_eq_true]
      exact ⟨by simp [hws], ih⟩

theorem wsTidy_append_left {l₁ l₂ : List Char} (h : wsTidy (l₁ ++ l₂) = true) :
    wsTidy l₁ = true := by
  induction l₁ with
  | nil => rfl
  | cons c cs ih =>
    simp only [List.cons_append, wsTidy, Bool.and_eq_true, Bool.or_eq_true,
      Bool.not_eq_true', decide_eq_true_eq] at h ⊢
    refine ⟨?_, ih h.2⟩
    rcases h.1 with h1 | h1
    · exact Or.inl h1
    · refine Or.inr ⟨h1.1, ?_⟩
      cases cs with
      | nil => rfl
      | cons d ds => simpa [headNotWs] using h1.2

theorem map_eq_self_of_fixed {f : Char → Char} {l : List Char}
    (h : ∀ a ∈ l, f a = a) : l.map f = l := by
  have : l.map f = l.map id := List.map_eq_map_iff.mpr h
  simpa using this

theorem mem_trimLeft {c : Char} {l : List Char} (h : c ∈ trimLeft l) : c ∈ l :=
  (List.dropWhile_sublist _).mem h

theorem mem_trimRight {c : Char} {l : List Char} (h : c ∈ trimRight l) : c ∈ l := by
  rw [trimRight] at h
  have h1 : c ∈ l.reverse.dropWhile isJsSpace := List.mem_reverse.mp h
  have h2 : c ∈ l.reverse := (List.dropWhile_sublist _).mem h1
  exact List.mem_reverse.mp h2

theorem mem_jsTrim {c : Char} {l : List Char} (h : c ∈ jsTrim l) : c ∈ l :=
  mem_trimLeft (mem_trimRight h)

theorem mem_collapseWs {c : Char} {l : List Char} (h : c ∈ collapseWs l) :
    c = ' ' ∨ c ∈ l := by
  induction l with
  | nil => simp [collapseWs] at h
  | cons a as ih =>
    by_cases hws : isJsSpace a
    · cases as with
      | nil =>
        simp [collapseWs, hws] at h
        exact Or.inl h
      | cons d ds =>
        by_cases hd : isJsSpace d
        · rw [show collapseWs (a :: d :: ds) = collapseWs (d :: ds) by
            simp [collapseWs, hws, hd]] at h
          rcases ih h with h1 | h1
          · exact Or.inl h1
          · exact Or.inr (List.mem_cons_of_mem _ h1)
        · rw [show collapseWs (a :: d :: ds) = ' ' :: collapseWs (d :: ds) by
            simp [collapseWs, hws, hd]] at h
          rcases List.mem_cons.mp h with h1 | h1
          · exact Or.inl h1
          · rcases ih h1 with h2 | h2
            · exact Or.inl h2
            · exact Or.inr (List.mem_cons_of_mem _ h2)
    · rw [show collapseWs (a :: as) = a :: collapseWs as by simp [collapseWs, hws]] at h
      rcases List.mem_cons.mp h with h1 | h1
      · exact Or.inr (h1 ▸ List.mem_cons_self a as)
      · rcases ih h1 with h2 | h2
        · exact Or.inl h2
        · exact Or.inr (List.mem_cons_of_mem _ h2)

theorem mem_stripPunct {c : Char} {l : List Char} (h : c ∈ stripPunct l) : c ∈ l :=
  List.mem_of_mem_filter h

theorem keepChar_of_mem_stripPunct {c : Char} {l : List Char} (h : c ∈ stripPunct l) :
    keepChar c = true :=
  List.of_mem_filter h

theorem dropWhile_idem (p : Char → Bool) (l : List Char) :
    (l.dropWhile p).dropWhile p = l.dropWhile p := by
  induction l with
  | nil => rfl
  | cons a as ih =>
    by_cases h : p a
    · simp [List.dropWhile_cons, h, ih]
    · simp [List.dropWhile_cons, h]

theorem trimRight_prefix (l : List Char) : ∃ l₂, trimRight l ++ l₂ = l := by
  refine ⟨(l.reverse.takeWhile isJsSpace).reverse, ?_⟩
  rw [trimRight, ← List.reverse_append, List.takeWhile_append_dropWhile, List.reverse_reverse]

theorem trimLeft_trimRight_of_headNotWs {l : List Char}
    (h : trimLeft l = l) : trimLeft (trimRight l) = trimRight l := by
  obtain ⟨l₂, hl⟩ := trimRight_prefix l
  cases hr : trimRight l with
  | nil => rfl
  | cons a as =>
    rw [hr] at hl
    have : trimLeft (a :: (as ++ l₂)) = a :: (as ++ l₂) := by
      rw [List.cons_append] at hl
      rw [hl]; exact h
    have ha : isJsSpace a = false := by
      by_contra hc
      have ha' : isJsSpace a = true := by
        cases hx : isJsSpace a
        · exact absurd hx hc
        · rfl
      rw [trimLeft, List.dropWhile_cons, if_pos ha'] at this
      have hlen := congrArg List.length this
      rw [List.length_cons] at hlen
      have hle : (List.dropWhile isJsSpace (as ++ l₂)).length ≤ (as ++ l₂).length :=
        (List.dropWhile_sublist isJsSpace).length_le
      omega
    rw [trimLeft, List.dropWhile_cons, if_neg (by simp [ha])]

theorem trimRight_idem (l : List Char) : trimRight (trimRight l) = trimRight l := by
  rw [trimRight, trimRight, List.reverse_reverse, dropWhile_idem]

theorem jsTrim_idem (l : List Char) : jsTrim (jsTrim l) = jsTrim l := by
  rw [jsTrim, jsTrim]
  have h1 : trimLeft (trimLeft l) = trimLeft l := dropWhile_idem isJsSpace l
  rw [trimLeft_trimRight_of_headNotWs h1, trimRight_idem]

theorem wsTidy_trimLeft {l : List Char} (h : wsTidy l = true) : wsTidy (trimLeft l) = true := by
  induction l with
  | nil => exact h
  | cons a as ih =>
    by_cases ha : isJsSpace a
    · rw [trimLeft, List.dropWhile_cons, if_pos ha]
      exact ih (wsTidy_tail h)
    · rw [trimLeft, List.dropWhile_cons, if_neg (by simp [ha])]
      exact h

theorem wsTidy_trimRight {l : List Char} (h : wsTidy l = true) : wsTidy (trimRight l) = true := by
  obtain ⟨l₂, hl⟩ := trimRight_prefix l
  have h2 : wsTidy (trimRight l ++ l₂) = true := by rw [hl]; exact h
  exact wsTidy_append_left h2

theorem wsTidy_jsTrim {l : List Char} (h : wsTidy l = true) : wsTidy (jsTrim l) = true :=
  wsTidy_trimRight (wsTidy_trimLeft h)

theorem normalizeLabelL_chars_lower {l : List Char} :
    ∀ c ∈ normalizeLabelL l, lowerChar c = c := by
  intro c hc
  rw [normalizeLabelL] at hc
  rcases mem_collapseWs (mem_jsTrim hc) with h | h
  · rw [h]; decide
  · have := mem_jsTrim (mem_stripPunct h)
    obtain ⟨a, _, ha⟩ := List.mem_map.mp this
    rw [← ha]; exact lowerChar_idem a

theorem normalizeLabelL_chars_keep {l : List Char} :
    ∀ c ∈ normalizeLabelL l, keepChar c = true := by
  intro c hc
  rw [normalizeLabelL] at hc
  rcases mem_collapseWs (mem_jsTrim hc) with h | h
  · rw [h]; decide
  · exact keepChar_of_mem_stripPunct h

theorem normalizeLabelL_wsTidy (l : List Char) : wsTidy (normalizeLabelL l) = true := by
  rw [normalizeLabelL]
  exact wsTidy_jsTrim (wsTidy_collapseWs _)

theorem normalizeLabelL_jsTrim (l : List Char) :
    jsTrim (normalizeLabelL l) = normalizeLabelL l := by
  rw [normalizeLabelL, jsTrim_idem]

theorem normalizeLabelL_idem (l : List Char) :
    normalizeLabelL (normalizeLabelL l) = normalizeLabelL l := by
  have hmap : (normalizeLabelL l).map lowerChar = normalizeLabelL l :=
    map_eq_self_of_fixed normalizeLabelL_chars_lower
  have htrim : jsTrim (normalizeLabelL l) = normalizeLabelL l := normalizeLabelL_jsTrim l
  have hstrip : stripPunct (normalizeLabelL l) = normalizeLabelL l :=
    List.filter_eq_self.mpr normalizeLabelL_chars_keep
  have hcoll : collapseWs (normalizeLabelL l) = normalizeLabelL l :=
    collapseWs_eq_self (normalizeLabelL_wsTidy l)
  show jsTrim (collapseWs (stripPunct (jsTrim ((normalizeLabelL l).map lowerChar)))) =
    normalizeLabelL l
  rw [hmap, htrim, hstrip, hcoll, htrim]

theorem normalizeLabel_idem_str (s : String) :
    normalizeLabel (normalizeLabel s) = normalizeLabel s := by
  show ((normalizeLabelL ((normalizeLabelL s.data).asString).data).asString) = _
  have hdata : ((normalizeLabelL s.data).asString).data = normalizeLabelL s.data := rfl
  rw [hdata, normalizeLabelL_idem]
  rfl

/-- Model of `normalizeWhitespace` (quotes module): collapse all whitespace
runs to single spaces and trim. -/
def normalizeWhitespaceL (l : List Char) : List Char := jsTrim (collapseWs l)

/-- Element of a compiled flexible pattern: a literal character (matched
case-insensitively) or `\s+` (one or more whitespace characters). -/
inductive PatElem where
  | lit (c : Char)
  | wsPlus
deriving DecidableEq

/-- Model of `createFlexiblePattern`: regex metacharacter escaping does not
change the matched language, and each whitespace run of the phrase becomes
one `\s+` element.  Matching is case-insensitive (`i` flag). -/
def patternOf : List Char → List PatElem
  | [] => []
  | c :: cs =>
    if isJsSpace c then
      match cs with
      | [] => [PatElem.wsPlus]
      | d :: _ => if isJsSpace d then patternOf cs else PatElem.wsPlus :: patternOf cs
    else PatElem.lit c :: patternOf cs

/-- Case-insensitive character comparison, modelling the `i` flag's
canonicalisation on the ASCII range. -/
def charEqCI (x c : Char) : Bool := lowerChar x == lowerChar c

/-- Length of the match of a compiled pattern at the head of the text, if
any.  For patterns produced by `patternOf`, the greedy `\s+` consumes a full
whitespace run with no backtracking, because every literal that can follow
it is a non-whitespace character; this function is therefore an exact model
of the JavaScript regex engine on those patterns. -/
def matchLen : List PatElem → List Char → Option Nat
  | [], _ => some 0
  | PatElem.lit _ :: _, [] => none
  | PatElem.lit c :: ps, x :: xs =>
    if charEqCI x c then (matchLen ps xs).map (· + 1) else none
  | PatElem.wsPlus :: ps, t =>
    let run := t.takeWhile isJsSpace
    if run.length = 0 then none
    else (matchLen ps (t.drop run.length)).map (· + run.length)

/-- Leftmost-match search, modelling `RegExp.prototype.exec`: scan start
positions left to right, return `(start, end)` of the first match. -/
def execAux (pat : List PatElem) : List Char → Nat → Option (Nat × Nat)
  | t, i =>
    match matchLen pat t with
    | some n => some (i, i + n)
    | none =>
      match t with
      | [] => none
      | _ :: xs => execAux pat xs (i + 1)

/-- Embedding of `findPhrase` (quotes module). -/
def findPhrase (text phrase : List Char) : Option (Nat × Nat) :=
  if jsTrim phrase = [] then none
  else execAux (patternOf phrase) text 0

/-- Embedding of `extractQuote` (quotes module).  `none` in a marker
position models both `undefined` and the falsy empty string. -/
def extractQuote (text : List Char) (quoteStart quoteEnd : Option (List Char)) :
    Option (List Char) :=
  match quoteStart, quoteEnd with
  | some qs, some qe =>
    if qs = [] then none
    else if qe = [] then none
    else if text = [] then none
    else
      match findPhrase text qs with
      | none => none
      | some (sStart, _) =>
        match findPhrase (text.drop sStart) qe with
        | none => none
        | some (_, eEnd) =>
          let extracted := (text.take (sStart + eEnd)).drop sStart
          if 500 < extracted.length then none
          else some (normalizeWhitespaceL extracted)
  | _, _ => none

/-- Contiguous-substring check, modelling `String.prototype.includes`. -/
def startsWithSub : List Char → List Char → Bool
  | _, [] => true
  | [], _ :: _ => false
  | h :: hs, n :: ns => h == n && startsWithSub hs ns

/-- Contiguous-substring containment, modelling `String.prototype.includes`. -/
def containsSub : List Char → List Char → Bool
  | [], needle => needle.isEmpty
  | h :: hs, needle => startsWithSub (h :: hs) needle || containsSub hs needle

theorem execAux_spec {pat : List PatElem} {t : List Char} {i a b : Nat}
    (h : execAux pat t i = some (a, b)) :
    i ≤ a ∧ a - i ≤ t.length ∧ a ≤ b ∧ matchLen pat (t.drop (a - i)) = some (b - a) := by
  induction t generalizing i with
  | nil =>
    rw [execAux] at h
    cases hm : matchLen pat [] with
    | none => rw [hm] at h; exact absurd h (by simp)
    | some n =>
      rw [hm] at h
      simp only [Option.some.injEq, Prod.mk.injEq] at h
      obtain ⟨ha, hb⟩ := h
      subst ha; subst hb
      simpa using hm
  | cons x xs ih =>
    rw [execAux] at h
    cases hm : matchLen pat (x :: xs) with
    | some n =>
      rw [hm] at h
      simp only [Option.some.injEq, Prod.mk.injEq] at h
      obtain ⟨ha, hb⟩ := h
      subst ha; subst hb
      simpa using hm
    | none =>
      rw [hm] at h
      have := ih h
      obtain ⟨h1, h2, h3, h4⟩ := this
      refine ⟨by omega, by simp; omega, h3, ?_⟩
      have hd : (x :: xs).drop (a - i) = xs.drop (a - i - 1) := by
        cases hai : a - i with
        | zero => omega
        | succ m => simp [List.drop_succ_cons]
      have heq : a - i - 1 = a - (i + 1) := by omega
      rw [hd, heq]
      exact h4

theorem findPhrase_spec {text phrase : List Char} {a b : Nat}
    (h : findPhrase text phrase = some (a, b)) :
    a ≤ text.length ∧ a ≤ b ∧ matchLen (patternOf phrase) (text.drop a) = some (b - a) := by
  rw [findPhrase] at h
  split at h
  · exact absurd h (by simp)
  · have := execAux_spec h
    refine ⟨by omega, this.2.2.1, ?_⟩
    have h4 := this.2.2.2
    simpa using h4

theorem matchLen_le {pat : List PatElem} {t : List Char} {n : Nat}
    (h : matchLen pat t = some n) : n ≤ t.length := by
  induction pat generalizing t n with
  | nil =>
    rw [matchLen] at h
    simp only [Option.some.injEq] at h
    omega
  | cons p ps ih =>
    cases p with
    | lit c =>
      cases t with
      | nil => exact absurd h (by rw [matchLen]; simp)
      | cons x xs =>
        rw [matchLen] at h
        split at h
        · cases hm : matchLen ps xs with
          | none => rw [hm] at h; exact absurd h (by simp)
          | some m =>
            rw [hm] at h
            simp only [Option.map_some', Option.some.injEq] at h
            have := ih hm
            simp only [List.length_cons]
            omega
        · exact absurd h (by simp)
    | wsPlus =>
      rw [matchLen] at h
      split at h
      · exact absurd h (by simp)
      · cases hm : matchLen ps (t.drop (t.takeWhile isJsSpace).length) with
        | none => rw [hm] at h; exact absurd h (by simp)
        | some m =>
          rw [hm] at h
          simp only [Option.map_some', Option.some.injEq] at h
          have h1 := ih hm
          have h2 : (t.drop (t.takeWhile isJsSpace).length).length =
              t.length - (t.takeWhile isJsSpace).length := by simp
          have h3 : (t.takeWhile isJsSpace).length ≤ t.length :=
            (List.takeWhile_sublist _).length_le
          omega

theorem extractQuote_spec {text qs qe r : List Char}
    (h : extractQuote text (some qs) (some qe) = some r) :
    ∃ sStart eStart eLen,
      sStart + eStart + eLen ≤ text.length ∧
      r = normalizeWhitespaceL ((text.take (sStart + eStart + eLen)).drop sStart) ∧
      matchLen (patternOf qe) (text.drop (sStart + eStart)) = some eLen ∧
      (∃ m, matchLen (patternOf qs) (text.drop sStart) = some m) ∧
      ((text.take (sStart + eStart + eLen)).drop sStart).length ≤ 500 := by
  simp only [extractQuote] at h
  split at h
  · exact absurd h (by simp)
  · split at h
    · exact absurd h (by simp)
    · split at h
      · exact absurd h (by simp)
      · split at h
        · exact absurd h (by simp)
        · rename_i sStart sEnd hfs
          split at h
          · exact absurd h (by simp)
          · rename_i eStart eEnd hfe
            have hs := findPhrase_spec hfs
            have he := findPhrase_spec hfe
            have hdd : matchLen (patternOf qe) (text.drop (sStart + eStart)) =
                some (eEnd - eStart) := by
              have h4 := he.2.2
              rw [List.drop_drop] at h4
              exact h4
            split at h
            · exact absurd h (by simp)
            · rename_i hlen
              simp only [Option.some.injEq] at h
              have hE : sStart + eStart + (eEnd - eStart) = sStart + eEnd := by
                have := he.2.1; omega
              refine ⟨sStart, eStart, eEnd - eStart, ?_, ?_, hdd, ?_, ?_⟩
              · have hA : sStart ≤ text.length := hs.1
                have hB : eStart ≤ (text.drop sStart).length := he.1
                have hC := matchLen_le hdd
                simp only [List.length_drop] at hB hC
                omega
              · rw [← h, hE]
              · exact ⟨sEnd - sStart, hs.2.2⟩
              · rw [hE]
                omega

theorem char_toNat_inj {a b : Char} (h : a.toNat = b.toNat) : a = b := by
  have h2 := congrArg Char.ofNat h
  rwa [Char.ofNat_toNat, Char.ofNat_toNat] at h2

/-- Single-character comparison by code point. -/
def cmpChar (x y : Char) : Ordering :=
  if x.toNat < y.toNat then Ordering.lt
  else if y.toNat < x.toNat then Ordering.gt
  else Ordering.eq

/-- Lexicographic string comparison by code point; models the sign of
`String.prototype.localeCompare` under code-point collation (the ids and
timestamps compared by the check-create engine are ASCII). -/
def cmpStr : List Char → List Char → Ordering
  | [], [] => Ordering.eq
  | [], _ :: _ => Ordering.lt
  | _ :: _, [] => Ordering.gt
  | x :: xs, y :: ys =>
    match cmpChar x y with
    | Ordering.eq => cmpStr xs ys
    | o => o

/-- String-level comparison used by the check-create sort comparator. -/
def jsCompare (a b : String) : Ordering := cmpStr a.data b.data

theorem cmpChar_eq_iff {x y : Char} : cmpChar x y = Ordering.eq ↔ x = y := by
  constructor
  · intro h
    rw [cmpChar] at h
    split at h
    · exact absurd h (by simp)
    · split at h
      · exact absurd h (by simp)
      · rename_i h1 h2
        exact char_toNat_inj (by omega)
  · intro h
    subst h
    simp [cmpChar]

theorem cmpChar_lt_iff {x y : Char} : cmpChar x y = Ordering.lt ↔ x.toNat < y.toNat := by
  rw [cmpChar]
  split
  · rename_i h; simp [h]
  · split
    · rename_i h1 h2
      constructor
      · intro h; exact absurd h (by simp)
      · intro h; omega
    · rename_i h1 h2
      constructor
      · intro h; exact absurd h (by simp)
      · intro h; omega

theorem cmpChar_lt_trans {x y z : Char} (h1 : cmpChar x y = Ordering.lt)
    (h2 : cmpChar y z = Ordering.lt) : cmpChar x z = Ordering.lt := by
  rw [cmpChar_lt_iff] at h1 h2 ⊢
  omega

theorem cmpStr_eq_iff {a b : List Char} : cmpStr a b = Ordering.eq ↔ a = b := by
  induction a generalizing b with
  | nil =>
    cases b with
    | nil => simp [cmpStr]
    | cons y ys => simp [cmpStr]
  | cons x xs ih =>
    cases b with
    | nil => simp [cmpStr]
    | cons y ys =>
      rw [cmpStr]
      cases hc : cmpChar x y with
      | eq =>
        have hxy : x = y := cmpChar_eq_iff.mp hc
        simp only [hxy, List.cons.injEq, true_and]
        exact ih
      | lt =>
        simp only []
        constructor
        · intro h; exact absurd h (by simp)
        · intro h
          have : x = y := by injection h
          rw [this] at hc
          rw [cmpChar_eq_iff.mpr rfl] at hc
          exact absurd hc (by simp)
      | gt =>
        simp only []
        constructor
        · intro h; exact absurd h (by simp)
        · intro h
          have : x = y := by injection h
          rw [this] at hc
          rw [cmpChar_eq_iff.mpr rfl] at hc
          exact absurd hc (by simp)

theorem cmpStr_lt_trans {a b c : List Char} (h1 : cmpStr a b = Ordering.lt)
    (h2 : cmpStr b c = Ordering.lt) : cmpStr a c = Ordering.lt := by
  induction a generalizing b c with
  | nil =>
    cases b with
    | nil => exact absurd h1 (by rw [cmpStr]; simp)
    | cons y ys =>
      cases c with
      | nil => exact absurd h2 (by rw [cmpStr]; simp)
      | cons z zs => rfl
  | cons x xs ih =>
    cases b with
    | nil => exact absurd h1 (by rw [cmpStr]; simp)
    | cons y ys =>
      cases c with
      | nil => exact absurd h2 (by rw [cmpStr]; simp)
      | cons z zs =>
        rw [cmpStr] at h1 h2 ⊢
        cases hxy : cmpChar x y with
        | gt => rw [hxy] at h1; exact absurd h1 (by simp)
        | lt =>
          rw [hxy] at h1
          cases hyz : cmpChar y z with
          | gt => rw [hyz] at h2; exact absurd h2 (by simp)
          | lt => rw [cmpChar_lt_trans hxy hyz]
          | eq =>
            have : y = z := cmpChar_eq_iff.mp hyz
            subst this
            rw [hxy]
        | eq =>
          rw [hxy] at h1
          have hxy' : x = y := cmpChar_eq_iff.mp hxy
          subst hxy'
          cases hyz : cmpChar x z with
          | gt => rw [hyz] at h2; exact absurd h2 (by simp)
          | lt => rfl
          | eq =>
            rw [hyz] at h2
            exact ih h1 h2

theorem cmpChar_swap (x y : Char) : cmpChar y x = (cmpChar x y).swap := by
  rw [cmpChar, cmpChar]
  rcases Nat.lt_trichotomy x.toNat y.toNat with h | h | h
  · have h1 : ¬ y.toNat < x.toNat := by omega
    rw [if_neg h1, if_pos h, if_pos h]
    rfl
  · have h1 : ¬ y.toNat < x.toNat := by omega
    have h2 : ¬ x.toNat < y.toNat := by omega
    rw [if_neg h1, if_neg h2, if_neg h2, if_neg h1]
    rfl
  · have h2 : ¬ x.toNat < y.toNat := by omega
    rw [if_pos h, if_neg h2, if_pos h]
    rfl

theorem cmpStr_swap (a b : List Char) : cmpStr b a = (cmpStr a b).swap := by
  induction a generalizing b with
  | nil =>
    cases b with
    | nil => rfl
    | cons y ys => rfl
  | cons x xs ih =>
    cases b with
    | nil => rfl
    | cons y ys =>
      rw [cmpStr, cmpStr, cmpChar_swap]
      cases hc : cmpChar x y with
      | eq => exact ih ys
      | lt => rfl
      | gt => rfl

theorem string_data_inj {a b : String} (h : a.data = b.data) : a = b := by
  cases a; cases b; exact congrArg String.mk h

theorem jsCompare_eq_iff {a b : String} : jsCompare a b = Ordering.eq ↔ a = b := by
  rw [jsCompare]
  constructor
  · intro h; exact string_data_inj (cmpStr_eq_iff.mp h)
  · intro h; subst h; exact cmpStr_eq_iff.mpr rfl

theorem jsCompare_lt_trans {a b c : String} (h1 : jsCompare a b = Ordering.lt)
    (h2 : jsCompare b c = Ordering.lt) : jsCompare a c = Ordering.lt :=
  cmpStr_lt_trans h1 h2

theorem jsCompare_swap (a b : String) : jsCompare b a = (jsCompare a b).swap :=
  cmpStr_swap a.data b.data

theorem jsCompare_le_trans {a b c : String} (h1 : jsCompare a b ≠ Ordering.gt)
    (h2 : jsCompare b c ≠ Ordering.gt) : jsCompare a c ≠ Ordering.gt := by
  cases hab : jsCompare a b with
  | gt => exact absurd hab h1
  | lt =>
    cases hbc : jsCompare b c with
    | gt => exact absurd hbc h2
    | lt => rw [jsCompare_lt_trans hab hbc]; simp
    | eq =>
      have : b = c := jsCompare_eq_iff.mp hbc
      subst this
      rw [hab]; simp
  | eq =>
    have : a = b := jsCompare_eq_iff.mp hab
    subst this
    exact h2

/-- Entity reference as returned by the lookup and create endpoints. -/
structure EntityRef where
  id : String
  created_at : String
deriving DecidableEq, Repr

/-- Comparator of the race-resolution sort
(`a.created_at.localeCompare(b.created_at) || a.id.localeCompare(b.id)`),
as an `Ordering`. -/
def matchCmp (a b : EntityRef) : Ordering :=
  (jsCompare a.created_at b.created_at).then (jsCompare a.id b.id)

/-- Weak order induced by the comparator (comparator result non-positive). -/
def matchLe (a b : EntityRef) : Bool :=
  match matchCmp a b with
  | Ordering.gt => false
  | _ => true

theorem ordering_then_swap (x y : Ordering) : (x.swap).then (y.swap) = (x.then y).swap := by
  cases x <;> rfl

theorem matchCmp_swap (a b : EntityRef) : matchCmp b a = (matchCmp a b).swap := by
  rw [matchCmp, matchCmp, jsCompare_swap, jsCompare_swap a.id b.id, ordering_then_swap]

theorem matchLe_total (a b : EntityRef) : matchLe a b = true ∨ matchLe b a = true := by
  rw [matchLe, matchLe, matchCmp_swap a b]
  cases hx : matchCmp a b with
  | lt => left; rfl
  | eq => left; rfl
  | gt => right; rfl

theorem matchLe_iff {a b : EntityRef} : matchLe a b = true ↔ matchCmp a b ≠ Ordering.gt := by
  rw [matchLe]
  cases matchCmp a b <;> simp

theorem matchLe_trans {a b c : EntityRef} (h1 : matchLe a b = true)
    (h2 : matchLe b c = true) : matchLe a c = true := by
  rw [matchLe_iff] at h1 h2 ⊢
  rw [matchCmp] at h1 h2 ⊢
  cases hab : jsCompare a.created_at b.created_at with
  | gt => rw [hab] at h1; exact absurd rfl h1
  | lt =>
    cases hbc : jsCompare b.created_at c.created_at with
    | gt => rw [hbc] at h2; exact absurd rfl h2
    | lt =>
      rw [jsCompare_lt_trans hab hbc]
      simp [Ordering.then]
    | eq =>
      have : b.created_at = c.created_at := jsCompare_eq_iff.mp hbc
      rw [← this, hab]
      simp [Ordering.then]
  | eq =>
    have hcab : a.created_at = b.created_at := jsCompare_eq_iff.mp hab
    rw [hab] at h1
    cases hbc : jsCompare b.created_at c.created_at with
    | gt => rw [hbc] at h2; exact absurd rfl h2
    | lt =>
      rw [hcab, hbc]
      simp [Ordering.then]
    | eq =>
      rw [hbc] at h2
      rw [hcab, hbc]
      simp only [Ordering.then] at h1 h2 ⊢
      exact jsCompare_le_trans h1 h2

/-- Order relation used for the race-resolution sort. -/
def matchRel (a b : EntityRef) : Prop := matchLe a b = true

instance : DecidableRel matchRel := fun a b => instDecidableEqBool (matchLe a b) true

instance : IsTotal EntityRef matchRel := ⟨matchLe_total⟩

instance : IsTrans EntityRef matchRel := ⟨fun _ _ _ => matchLe_trans⟩

/-- Model of `allMatches.sort((a, b) => a.created_at.localeCompare(b.created_at)
|| a.id.localeCompare(b.id))`.  `Array.prototype.sort` is some stable sort
consistent with the comparator; insertion sort is such a sort, and the
claims depend only on sortedness and on the multiset of elements. -/
def sortMatches (l : List EntityRef) : List EntityRef := List.insertionSort matchRel l

/-- Result record of one `checkCreate` call (`CheckCreateResult` in
src/src/types.ts, adopting the field name `type_` for `type`). -/
structure CheckCreateResult where
  entityId : String
  isNew : Bool
  label : String
  type_ : String
deriving DecidableEq, Repr

/-- Environment of one `checkCreate` execution: the observable responses of
the graph service for the calls that this execution can make.  `lookup1` is
the {id, created_at} of the first (limit-1) lookup, with `none` covering both
an empty result and a lookup error (the source maps errors to `null`);
`createResult` is the create response (`Except.error` models the thrown
`Failed to create entity`); `lookupAll k` is the entity list returned by the
(k+1)-st limit-10 lookup (errors map to `[]` in the source); `deleteFails`
tells whether the best-effort DELETE reports an error. -/
structure CheckCreateEnv where
  lookup1 : Option EntityRef
  createResult : Except String EntityRef
  lookupAll : Nat → List EntityRef
  deleteFails : Bool

/-- Model of `deleteEntity`: the DELETE error is only logged, so the call
returns `()` whether or not the service reports an error. -/
def deleteEntity (deleteFails : Bool) : Unit :=
  match deleteFails with
  | _ => ()

/-- Condition of the lookup retry loop: exactly one match and it is ours. -/
def ccRetryCond (created : EntityRef) (m : List EntityRef) : Bool :=
  m.length == 1 &&
    match m with
    | e :: _ => e.id == created.id
    | [] => false

/-- The final `allMatches` value after the retry loop of `checkCreate`
together with the number of limit-10 lookups that were issued (1 to 3).
The loop body runs while fewer than two retries have happened and the last
result was exactly our own entity. -/
def finalMatches (env : CheckCreateEnv) (created : EntityRef) : List EntityRef × Nat :=
  let m0 := env.lookupAll 0
  if ccRetryCond created m0 then
    let m1 := env.lookupAll 1
    if ccRetryCond created m1 then (env.lookupAll 2, 3) else (m1, 2)
  else (m0, 1)

/-- Embedding of `checkCreate` (the retry variant with `sync_index`), as a
function of the call environment.  Returns the result (or the propagated
create error) together with the total number of graph-service API calls
issued (first lookup, create, limit-10 lookups, delete). -/
def checkCreateRun (env : CheckCreateEnv) (label type_ : String) :
    Except String CheckCreateResult × Nat :=
  let normalizedLabel := normalizeLabel label
  match env.lookup1 with
  | some existing =>
    (Except.ok ⟨existing.id, false, normalizedLabel, type_⟩, 1)
  | none =>
    match env.createResult with
    | Except.error e => (Except.error ("Failed to create entity: " ++ e), 2)
    | Except.ok created =>
      let fm := finalMatches env created
      let allMatches := fm.1
      let baseCalls := 2 + fm.2
      if 1 < allMatches.length then
        let sorted := sortMatches allMatches
        match sorted with
        | winner :: _ =>
          if winner.id ≠ created.id then
            let _ := deleteEntity env.deleteFails
            (Except.ok ⟨winner.id, false, normalizedLabel, type_⟩, baseCalls + 1)
          else
            (Except.ok ⟨created.id, true, normalizedLabel, type_⟩, baseCalls)
        | [] => (Except.ok ⟨created.id, true, normalizedLabel, type_⟩, baseCalls)
      else
        (Except.ok ⟨created.id, true, normalizedLabel, type_⟩, baseCalls)

theorem finalMatches_calls_le (env : CheckCreateEnv) (created : EntityRef) :
    1 ≤ (finalMatches env created).2 ∧ (finalMatches env created).2 ≤ 3 := by
  rw [finalMatches]
  simp only []
  split
  · split
    · exact ⟨by omega, by omega⟩
    · exact ⟨by omega, by omega⟩
  · exact ⟨by omega, by omega⟩

theorem checkCreateRun_ignores_deleteFails (env : CheckCreateEnv)
    (label type_ : String) (b : Bool) :
    checkCreateRun { env with deleteFails := b } label type_ =
      checkCreateRun env label type_ := by
  cases env
  rfl

/-- C1: when the first lookup finds no entity and the final limit-10 lookup
returns more than one match, `checkCreate` orders the matches by
`(created_at ascending, id ascending)`; if the first element of that order is
the created entity the call returns it with `isNew = true`, otherwise it
deletes its own entity (the DELETE outcome is swallowed and never changes the
result) and returns the winner with `isNew = false`. -/
theorem checkCreate_race_resolution_c1
    (env : CheckCreateEnv) (label type_ : String) (created winner : EntityRef)
    (rest : List EntityRef)
    (h1 : env.lookup1 = none)
    (h2 : env.createResult = Except.ok created)
    (h3 : 1 < (finalMatches env created).1.length)
    (h4 : sortMatches (finalMatches env created).1 = winner :: rest) :
    List.Sorted matchRel (winner :: rest) ∧
    List.Perm (winner :: rest) (finalMatches env created).1 ∧
    (winner.id = created.id →
      (checkCreateRun env label type_).1 =
        Except.ok ⟨created.id, true, normalizeLabel label, type_⟩) ∧
    (winner.id ≠ created.id →
      (checkCreateRun env label type_).1 =
        Except.ok ⟨winner.id, false, normalizeLabel label, type_⟩ ∧
      (checkCreateRun env label type_).2 = 3 + (finalMatches env created).2) ∧
    (∀ b, checkCreateRun { env with deleteFails := b } label type_ =
      checkCreateRun env label type_) := by
  have hsorted : List.Sorted matchRel (winner :: rest) := by
    rw [← h4]
    exact List.sorted_insertionSort matchRel _
  have hperm : List.Perm (winner :: rest) (finalMatches env created).1 := by
    rw [← h4]
    exact List.perm_insertionSort matchRel _
  have hrun : checkCreateRun env label type_ =
      (if winner.id ≠ created.id then
        (Except.ok ⟨winner.id, false, normalizeLabel label, type_⟩,
          2 + (finalMatches env created).2 + 1)
      else
        (Except.ok ⟨created.id, true, normalizeLabel label, type_⟩,
          2 + (finalMatches env created).2)) := by
    rw [checkCreateRun, h1, h2]
    simp only []
    rw [if_pos h3, h4]
  refine ⟨hsorted, hperm, ?_, ?_, fun b => checkCreateRun_ignores_deleteFails env label type_ b⟩
  · intro heq
    rw [hrun, if_neg (by simp [heq])]
  · intro hne
    rw [hrun, if_pos hne]
    exact ⟨rfl, by omega⟩

/-- Concrete race environment used to exercise the C1 theorem: the first
lookup misses, the create returns entity `b`, and the post-create lookup
already shows an older concurrent entity `a`. -/
def envRaceC1 : CheckCreateEnv where
  lookup1 := none
  createResult := Except.ok ⟨"idb", "2024-01-02"⟩
  lookupAll := fun _ => [⟨"idb", "2024-01-02"⟩, ⟨"ida", "2024-01-01"⟩]
  deleteFails := true

theorem checkCreate_race_resolution_c1_witness :
    List.Sorted matchRel (⟨"ida", "2024-01-01"⟩ :: [⟨"idb", "2024-01-02"⟩]) ∧
    List.Perm (⟨"ida", "2024-01-01"⟩ :: [⟨"idb", "2024-01-02"⟩])
      (finalMatches envRaceC1 ⟨"idb", "2024-01-02"⟩).1 ∧
    ((EntityRef.mk "ida" "2024-01-01").id = (EntityRef.mk "idb" "2024-01-02").id →
      (checkCreateRun envRaceC1 "Queequeg" "entity").1 =
        Except.ok ⟨(EntityRef.mk "idb" "2024-01-02").id, true,
          normalizeLabel "Queequeg", "entity"⟩) ∧
    ((EntityRef.mk "ida" "2024-01-01").id ≠ (EntityRef.mk "idb" "2024-01-02").id →
      (checkCreateRun envRaceC1 "Queequeg" "entity").1 =
        Except.ok ⟨(EntityRef.mk "ida" "2024-01-01").id, false,
          normalizeLabel "Queequeg", "entity"⟩ ∧
      (checkCreateRun envRaceC1 "Queequeg" "entity").2 =
        3 + (finalMatches envRaceC1 ⟨"idb", "2024-01-02"⟩).2) ∧
    (∀ b, checkCreateRun { envRaceC1 with deleteFails := b } "Queequeg" "entity" =
      checkCreateRun envRaceC1 "Queequeg" "entity") :=
  checkCreate_race_resolution_c1 envRaceC1 "Queequeg" "entity"
    ⟨"idb", "2024-01-02"⟩ ⟨"ida", "2024-01-01"⟩ [⟨"idb", "2024-01-02"⟩]
    rfl rfl (by decide) (by decide)

/-- Environment exhibiting the worst case of `checkCreate`: the first lookup
misses, both retry lookups still show only our own entity, and the third
limit-10 lookup finally reveals an older concurrent entity, forcing a
delete.  Calls: lookup, create, three limit-10 lookups, delete. -/
def envWorstC2 : CheckCreateEnv where
  lookup1 := none
  createResult := Except.ok ⟨"idb", "2024-01-02"⟩
  lookupAll := fun k =>
    if k < 2 then [⟨"idb", "2024-01-02"⟩]
    else [⟨"idb", "2024-01-02"⟩, ⟨"ida", "2024-01-01"⟩]
  deleteFails := false

/-- C2 counterexample: an execution of `checkCreate` on one
`(collection, label, type)` request that issues six graph-service API calls,
refuting the claimed bound of five. -/
theorem checkCreate_six_calls_c2_counterexample :
    (checkCreateRun envWorstC2 "Ahab" "entity").2 = 6 ∧
    ¬ ((checkCreateRun envWorstC2 "Ahab" "entity").2 ≤ 5) := by
  constructor
  · decide
  · decide

/-- C2 amended: every execution of `checkCreate` issues at most six
graph-service API calls (lookup, create, up to three limit-10 lookups, and
possibly one delete); the claimed bound of five is exceeded exactly when both
retry lookups fire and a delete is still needed. -/
theorem checkCreate_calls_le_six_c2 (env : CheckCreateEnv) (label type_ : String) :
    (checkCreateRun env label type_).2 ≤ 6 := by
  have hfm := finalMatches_calls_le env
  rw [checkCreateRun]
  cases h1 : env.lookup1 with
  | some existing => simp
  | none =>
    cases h2 : env.createResult with
    | error e => simp
    | ok created =>
      have := hfm created
      simp only []
      split
      · split
        · split
          · simp; omega
          · simp; omega
        · simp; omega
      · simp; omega

/-- One `parts` entry of the first candidate of a Gemini API response. -/
structure GemPart where
  text : Option String
  thought : Bool
deriving DecidableEq, Repr

/-- The `usageMetadata` object of a Gemini API response; `none` models an
absent field. -/
structure GemUsage where
  promptTokenCount : Option Nat
  candidatesTokenCount : Option Nat
  totalTokenCount : Option Nat
deriving DecidableEq, Repr

/-- Parsed JSON body of a Gemini API success response, restricted to the
fields that `parseGeminiResponse` reads (`parts` is the part list of the
first candidate, empty when candidates or content are absent). -/
structure GemData where
  parts : List GemPart
  usage : GemUsage
deriving DecidableEq, Repr

/-- Return value of `callGemini` (`GeminiResponse` in src/src/types.ts).
The source computes `cost_usd` in binary floating point; the model carries
the exact rational value of the same formula. -/
structure GeminiResponse where
  content : String
  tokens : Nat
  prompt_tokens : Nat
  completion_tokens : Nat
  cost_usd : ℚ
deriving DecidableEq, Repr

/-- Truthiness of an optional string (`p.text` in the part filter). -/
def textTruthy (t : Option String) : Bool :=
  match t with
  | some s => s ≠ ""
  | none => false

/-- Embedding of `parseGeminiResponse` (src/src/gemini.ts): concatenate the
text of all non-thought parts, propagate usage counts with `|| 0` defaults
(`totalTokenCount || promptTokens + completionTokens` falls back on both an
absent and a zero total, as JavaScript `||` does), and compute the cost from
the per-million rates 0.10 and 0.40. -/
def parseGeminiResponse (data : GemData) : GeminiResponse :=
  let kept := data.parts.filter (fun p => !p.thought && textTruthy p.text)
  let content := String.join (kept.map (fun p => p.text.getD ""))
  let promptTokens : Nat := match data.usage.promptTokenCount with
    | some n => n
    | none => 0
  let completionTokens : Nat := match data.usage.candidatesTokenCount with
    | some n => n
    | none => 0
  let totalTokens : Nat := match data.usage.totalTokenCount with
    | some n => if n = 0 then promptTokens + completionTokens else n
    | none => promptTokens + completionTokens
  let cost : ℚ := (promptTokens : ℚ) / 1000000 * (1 / 10) +
    (completionTokens : ℚ) / 1000000 * (2 / 5)
  ⟨content, totalTokens, promptTokens, completionTokens, cost⟩

/-- Outcome of one HTTP round trip of the Gemini client: a network-level
failure (fetch rejection, timeout abort, body decode failure) or a response
with a status, a body text and, for success statuses, a parsed JSON body. -/
inductive FetchOutcome where
  | netError (msg : String)
  | response (status : Nat) (body : String) (data : GemData)
deriving DecidableEq

/-- Environment of one `callGemini` execution: the outcome of the
(i+1)-st HTTP request. -/
structure GeminiEnv where
  fetch : Nat → FetchOutcome

/-- Error carried by a failed `callGemini` (the thrown `Error`): a network
message or `Gemini API error (status): body`. -/
inductive GemError where
  | net (msg : String)
  | api (status : Nat) (body : String)
deriving DecidableEq, Repr

/-- Embedding of the attempt loop of `callGemini` (src/src/gemini.ts).
`attempt` is the current index, `remaining` the number of attempts still
allowed after it (`MAX_RETRIES - attempt`).  Returns the result together
with the number of HTTP requests issued from this attempt on.  A thrown
non-retryable-status error is caught by the surrounding catch-all handler
exactly like a network error, so both retry while attempts remain; a 429 or
5xx status retries via the continue branch and surfaces as the thrown error
on the last attempt. -/
def callGeminiAux (env : GeminiEnv) : Nat → Nat → Except GemError GeminiResponse × Nat
  | attempt, remaining =>
    match env.fetch attempt with
    | FetchOutcome.netError msg =>
      match remaining with
      | r + 1 =>
        let rec' := callGeminiAux env (attempt + 1) r
        (rec'.1, rec'.2 + 1)
      | 0 => (Except.error (GemError.net msg), 1)
    | FetchOutcome.response st body data =>
      if st = 429 ∨ 500 ≤ st then
        match remaining with
        | r + 1 =>
          let rec' := callGeminiAux env (attempt + 1) r
          (rec'.1, rec'.2 + 1)
        | 0 => (Except.error (GemError.api st body), 1)
      else if ¬ (200 ≤ st ∧ st ≤ 299) then
        match remaining with
        | r + 1 =>
          let rec' := callGeminiAux env (attempt + 1) r
          (rec'.1, rec'.2 + 1)
        | 0 => (Except.error (GemError.api st body), 1)
      else (Except.ok (parseGeminiResponse data), 1)

/-- Embedding of `callGemini`: up to `MAX_RETRIES = 3` retries after the
first attempt.  Returns the result and the total number of HTTP requests. -/
def callGeminiRun (env : GeminiEnv) : Except GemError GeminiResponse × Nat :=
  callGeminiAux env 0 3

/-- Environment in which every HTTP request gets a non-retryable
`400 Bad Request` response. -/
def envBadRequestC3 : GeminiEnv where
  fetch := fun _ => FetchOutcome.response 400 "Bad Request" ⟨[], ⟨none, none, none⟩⟩

/-- C3 counterexample: with a persistent non-retryable 400 status,
`callGemini` issues four HTTP requests, not one — the thrown status error is
caught by the catch-all retry handler, so further requests are issued. -/
theorem callGemini_retries_on_400_c3_counterexample :
    (callGeminiRun envBadRequestC3).1 = Except.error (GemError.api 400 "Bad Request") ∧
    (callGeminiRun envBadRequestC3).2 = 4 ∧
    ¬ ((callGeminiRun envBadRequestC3).2 = 1) := by
  refine ⟨rfl, rfl, by decide⟩

theorem callGeminiAux_all_non_retryable (env : GeminiEnv) (s : Nat) (b : String)
    (hok : ¬ (200 ≤ s ∧ s ≤ 299)) (h429 : s ≠ 429) (h5xx : s < 500)
    (hf : ∀ i, ∃ d, env.fetch i = FetchOutcome.response s b d) :
    ∀ r attempt, callGeminiAux env attempt r = (Except.error (GemError.api s b), r + 1) := by
  have hcond : ¬ (s = 429 ∨ 500 ≤ s) := by omega
  intro r
  induction r with
  | zero =>
    intro attempt
    obtain ⟨d, hd⟩ := hf attempt
    rw [callGeminiAux, hd]
    simp only [if_neg hcond, if_pos hok]
  | succ r ih =>
    intro attempt
    obtain ⟨d, hd⟩ := hf attempt
    rw [callGeminiAux, hd]
    simp only [if_neg hcond, if_pos hok]
    rw [ih (attempt + 1)]

/-- C3 amended: a non-retryable HTTP status (not ok, not 429, below 500)
does make `callGemini` fail with an error carrying the status and the
response body, but not immediately: the error is thrown inside the `try`
block and caught by the catch-all retry handler, so when every attempt sees
that status the call issues all four HTTP requests and then surfaces the
error of the final attempt. -/
theorem callGemini_non_retryable_c3 (env : GeminiEnv) (s : Nat) (b : String)
    (hok : ¬ (200 ≤ s ∧ s ≤ 299)) (h429 : s ≠ 429) (h5xx : s < 500)
    (hf : ∀ i, ∃ d, env.fetch i = FetchOutcome.response s b d) :
    callGeminiRun env = (Except.error (GemError.api s b), 4) :=
  callGeminiAux_all_non_retryable env s b hok h429 h5xx hf 3 0

/-- Closed instantiation of the C3 amended theorem at the concrete
400-response environment. -/
theorem callGemini_non_retryable_c3_witness :
    callGeminiRun envBadRequestC3 = (Except.error (GemError.api 400 "Bad Request"), 4) :=
  callGemini_non_retryable_c3 envBadRequestC3 400 "Bad Request"
    (by omega) (by omega) (by omega)
    (fun _ => ⟨⟨[], ⟨none, none, none⟩⟩, rfl⟩)

/-- JSON value as produced by `JSON.parse`. -/
inductive JVal where
  | str (s : String)
  | num (q : ℚ)
  | bool (b : Bool)
  | null
  | arr (items : List JVal)
  | obj (fields : List (String × JVal))

/-- Property access `v[k]` on a parsed JSON value: `none` models
`undefined`.  `JSON.parse` keeps the last of duplicate keys, hence the
reversed search. -/
def jget : JVal → String → Option JVal
  | JVal.obj fields, k => (fields.reverse.find? (fun f => f.1 == k)).map (fun f => f.2)
  | _, _ => none

/-- Test `typeof v === 'object' && v !== null` (arrays are objects). -/
def isObjLike : JVal → Bool
  | JVal.obj _ => true
  | JVal.arr _ => true
  | _ => false

/-- Test `typeof x === 'string'` on a property value. -/
def jIsStr (v : Option JVal) : Bool :=
  match v with
  | some (JVal.str _) => true
  | _ => false

/-- Test that a property value is exactly the given string. -/
def jIsStrVal (v : Option JVal) (s : String) : Bool :=
  match v with
  | some (JVal.str t) => t == s
  | _ => false

/-- String payload of a property value, when it is a string. -/
def jStr? (v : Option JVal) : Option String :=
  match v with
  | some (JVal.str s) => some s
  | _ => none

/-- Numeric payload of a property value, when it is a number. -/
def jNum? (v : Option JVal) : Option ℚ :=
  match v with
  | some (JVal.num q) => some q
  | _ => none

/-- JavaScript truthiness of a property value (`undefined`, `null`, `false`,
`0` and the empty string are falsy). -/
def jTruthy (v : Option JVal) : Bool :=
  match v with
  | none => false
  | some JVal.null => false
  | some (JVal.bool b) => b
  | some (JVal.str s) => s ≠ ""
  | some (JVal.num q) => q ≠ 0
  | some (JVal.arr _) => true
  | some (JVal.obj _) => true

/-- Test `typeof v === 'object'` on a present value (`null` and arrays
count as objects). -/
def jTypeofObject : JVal → Bool
  | JVal.obj _ => true
  | JVal.arr _ => true
  | JVal.null => true
  | _ => false

/-- Number of `Object.keys` entries of a value (array indices for arrays,
distinct keys for objects). -/
def jKeyCount : JVal → Nat
  | JVal.obj fields => ((fields.map (fun f => f.1)).eraseDups).length
  | JVal.arr items => items.length
  | _ => 0

/-- Typed create operation (`CreateOp` in src/src/types.ts; the raw parsed
object also carries the optional `description` and `properties`). -/
structure CreateOp where
  label : String
  entity_type : String
  description : Option String
  properties : Option JVal

/-- Typed add-property operation (`AddPropertyOp` in src/src/types.ts). -/
structure AddPropertyOp where
  entity : String
  key : String
  value : String

/-- Typed add-relationship operation (`AddRelationshipOp` in
src/src/types.ts, plus the raw `quote_start`/`quote_end` markers that the
parser validates). -/
structure AddRelationshipOp where
  subject : String
  predicate : String
  target : String
  description : Option String
  source_text : Option String
  confidence : Option ℚ
  context : Option String
  quote_start : Option String
  quote_end : Option String

/-- Parsed operations grouped by variant (`ParsedOperations` in
src/src/types.ts). -/
structure ParsedOperations where
  creates : List CreateOp
  properties : List AddPropertyOp
  relationships : List AddRelationshipOp

/-- Embedding of `isCreateOp` (src/src/parse.ts, strict parser): the shape
guard together with the `console.warn` messages it emits. -/
def isCreateOp (op : JVal) : Bool × List String :=
  if ¬ (isObjLike op = true) then (false, [])
  else if ¬ (jIsStrVal (jget op "op") "create" = true) then (false, [])
  else if ¬ (jIsStr (jget op "label") = true) then (false, [])
  else if ¬ (jIsStr (jget op "entity_type") = true) then (false, [])
  else if ¬ (jIsStr (jget op "description") = true) then
    (false, ["CreateOp missing required description"])
  else if (jget op "properties").isSome = true ∧
      ¬ (jTypeofObject ((jget op "properties").getD JVal.null) = true) then
    (false, ["CreateOp has invalid properties type"])
  else if jTruthy (jget op "properties") = true then
    if jKeyCount ((jget op "properties").getD JVal.null) < 2 then
      (true, ["CreateOp has fewer than 2 properties"])
    else (true, [])
  else (true, ["CreateOp has no properties"])

/-- Embedding of `isAddPropertyOp` (src/src/parse.ts). -/
def isAddPropertyOp (op : JVal) : Bool :=
  isObjLike op && jIsStrVal (jget op "op") "add_property" &&
  jIsStr (jget op "entity") && jIsStr (jget op "key") && jIsStr (jget op "value")

/-- Embedding of `isAddRelationshipOp` (src/src/parse.ts, strict parser):
the shape guard together with its warnings. -/
def isAddRelationshipOp (op : JVal) : Bool × List String :=
  if ¬ (isObjLike op = true) then (false, [])
  else if ¬ (jIsStrVal (jget op "op") "add_relationship" = true) then (false, [])
  else if ¬ (jIsStr (jget op "subject") = true) then (false, [])
  else if ¬ (jIsStr (jget op "predicate") = true) then (false, [])
  else if ¬ (jIsStr (jget op "target") = true) then (false, [])
  else if ¬ (jIsStr (jget op "description") = true) then
    (false, ["AddRelationshipOp missing required description"])
  else if (jget op "quote_start").isSome = true ∧
      ¬ (jIsStr (jget op "quote_start") = true) then
    (false, ["AddRelationshipOp has invalid quote_start type"])
  else if (jget op "quote_end").isSome = true ∧
      ¬ (jIsStr (jget op "quote_end") = true) then
    (false, ["AddRelationshipOp has invalid quote_end type"])
  else (true, [])

/-- Projection of a raw JSON operation to the typed `CreateOp` (the guard
guarantees the string fields are present). -/
def toCreateOp (op : JVal) : CreateOp :=
  ⟨(jStr? (jget op "label")).getD "", (jStr? (jget op "entity_type")).getD "",
    jStr? (jget op "description"), jget op "properties"⟩

/-- Projection of a raw JSON operation to the typed `AddPropertyOp`. -/
def toAddPropertyOp (op : JVal) : AddPropertyOp :=
  ⟨(jStr? (jget op "entity")).getD "", (jStr? (jget op "key")).getD "",
    (jStr? (jget op "value")).getD ""⟩

/-- Projection of a raw JSON operation to the typed `AddRelationshipOp`. -/
def toAddRelationshipOp (op : JVal) : AddRelationshipOp :=
  ⟨(jStr? (jget op "subject")).getD "", (jStr? (jget op "predicate")).getD "",
    (jStr? (jget op "target")).getD "", jStr? (jget op "description"),
    jStr? (jget op "source_text"), jNum? (jget op "confidence"),
    jStr? (jget op "context"), jStr? (jget op "quote_start"),
    jStr? (jget op "quote_end")⟩

/-- One iteration of the classification loop of `parseOperations`: try the
three guards in order, collecting every warning the guards emit along the
way, and warn-and-skip an operation that matches none. -/
def parseStep (acc : ParsedOperations × List String) (op : JVal) :
    ParsedOperations × List String :=
  let ops := acc.1
  let warns := acc.2
  let createRes := isCreateOp op
  if createRes.1 then
    ({ ops with creates := ops.creates ++ [toCreateOp op] }, warns ++ createRes.2)
  else if isAddPropertyOp op then
    ({ ops with properties := ops.properties ++ [toAddPropertyOp op] },
      warns ++ createRes.2)
  else
    let relRes := isAddRelationshipOp op
    if relRes.1 then
      ({ ops with relationships := ops.relationships ++ [toAddRelationshipOp op] },
        warns ++ createRes.2 ++ relRes.2)
    else
      (ops, warns ++ createRes.2 ++ relRes.2 ++ ["Skipping invalid operation"])

/-- Embedding of `parseOperations` (src/src/parse.ts) after `JSON.parse`:
the argument is the parsed JSON value of the LLM content (a JSON string the
standard-library parser rejects is a separate fatal error upstream of this
function).  Accepts a bare array or an object with an `operations` array;
anything else is the fatal shape error.  Returns the grouped operations and
the emitted warnings. -/
def parseOperationsVal (v : JVal) : Except String (ParsedOperations × List String) :=
  match v with
  | JVal.arr xs => Except.ok (xs.foldl parseStep (⟨[], [], []⟩, []))
  | _ =>
    if isObjLike v then
      match jget v "operations" with
      | some (JVal.arr xs) => Except.ok (xs.foldl parseStep (⟨[], [], []⟩, []))
      | _ => Except.error "Expected array or object with operations key"
    else Except.error "Expected array or object with operations key"

/-- Raw LLM create operation of the older minimal shape: string `label` and
`entity_type` but no `description`. -/
def createOpNoDescription : JVal :=
  JVal.obj [("op", JVal.str "create"), ("label", JVal.str "Ahab"),
    ("entity_type", JVal.str "person")]

/-- Raw LLM add-relationship operation of the older minimal shape: string
`subject`, `predicate` and `target` but no `description`. -/
def relOpNoDescription : JVal :=
  JVal.obj [("op", JVal.str "add_relationship"), ("subject", JVal.str "Ahab"),
    ("predicate", JVal.str "hunts"), ("target", JVal.str "whale")]

/-- C4 counterexample: on an LLM output containing exactly the two
minimal-shape operations, `parseOperations` warns but returns empty
`creates` and `relationships` lists — both operations are dropped, not
kept. -/
theorem parse_minimal_shape_dropped_c4_counterexample :
    parseOperationsVal (JVal.arr [createOpNoDescription, relOpNoDescription]) =
      Except.ok (⟨[], [], []⟩,
        ["CreateOp missing required description", "Skipping invalid operation",
         "AddRelationshipOp missing required description",
         "Skipping invalid operation"]) := rfl

/-- Shape of a create operation accepted by the legacy parser but rejected
by the strict one: object, tag `create`, string label and entity type, and
a description that is absent or not a string. -/
def minimalCreateShape (op : JVal) : Prop :=
  isObjLike op = true ∧ jIsStrVal (jget op "op") "create" = true ∧
  jIsStr (jget op "label") = true ∧ jIsStr (jget op "entity_type") = true ∧
  jIsStr (jget op "description") = false

/-- Shape of an add-relationship operation accepted by the legacy parser
but rejected by the strict one. -/
def minimalRelShape (op : JVal) : Prop :=
  isObjLike op = true ∧ jIsStrVal (jget op "op") "add_relationship" = true ∧
  jIsStr (jget op "subject") = true ∧ jIsStr (jget op "predicate") = true ∧
  jIsStr (jget op "target") = true ∧ jIsStr (jget op "description") = false

theorem jIsStrVal_ne {v : Option JVal} {s t : String} (h : jIsStrVal v s = true)
    (hne : s ≠ t) : jIsStrVal v t = false := by
  cases v with
  | none => rfl
  | some jv =>
    cases jv with
    | str u =>
      rw [jIsStrVal] at h
      simp only [beq_iff_eq] at h
      rw [jIsStrVal]
      subst h
      simp [hne]
    | num q => rfl
    | bool b => rfl
    | null => rfl
    | arr xs => rfl
    | obj fs => rfl

/-- C4 amended: the strict parser requires `description` on create and
add-relationship operations; an operation of the older minimal shape makes
the guard emit a warning and return false, after which no other guard
accepts it, so `parseOperations` drops it (with a final skip warning)
rather than keeping it. -/
theorem parse_minimal_shape_dropped_c4 (op : JVal) (acc : ParsedOperations × List String) :
    (minimalCreateShape op →
      isCreateOp op = (false, ["CreateOp missing required description"]) ∧
      (parseStep acc op).1 = acc.1 ∧
      (parseStep acc op).2 =
        acc.2 ++ ["CreateOp missing required description", "Skipping invalid operation"]) ∧
    (minimalRelShape op →
      isAddRelationshipOp op = (false, ["AddRelationshipOp missing required description"]) ∧
      (parseStep acc op).1 = acc.1 ∧
      (parseStep acc op).2 =
        acc.2 ++ ["AddRelationshipOp missing required description",
          "Skipping invalid operation"]) := by
  constructor
  · intro h
    obtain ⟨h1, h2, h3, h4, h5⟩ := h
    have hc : isCreateOp op = (false, ["CreateOp missing required description"]) := by
      rw [isCreateOp]
      rw [if_neg (by simp [h1]), if_neg (by simp [h2]), if_neg (by simp [h3]),
        if_neg (by simp [h4]), if_pos (by simp [h5])]
    have hprop : isAddPropertyOp op = false := by
      rw [isAddPropertyOp]
      have := jIsStrVal_ne h2 (show "create" ≠ "add_property" by decide)
      simp [this]
    have hrel : isAddRelationshipOp op = (false, []) := by
      rw [isAddRelationshipOp]
      have := jIsStrVal_ne h2 (show "create" ≠ "add_relationship" by decide)
      rw [if_neg (by simp [h1]), if_pos (by simp [this])]
    refine ⟨hc, ?_, ?_⟩
    · rw [parseStep]
      simp only [hc, hprop, hrel]
      simp
    · rw [parseStep]
      simp only [hc, hprop, hrel]
      simp
  · intro h
    obtain ⟨h1, h2, h3, h4, h5, h6⟩ := h
    have hc : isCreateOp op = (false, []) := by
      rw [isCreateOp]
      have := jIsStrVal_ne h2 (show "add_relationship" ≠ "create" by decide)
      rw [if_neg (by simp [h1]), if_pos (by simp [this])]
    have hprop : isAddPropertyOp op = false := by
      rw [isAddPropertyOp]
      have := jIsStrVal_ne h2 (show "add_relationship" ≠ "add_property" by decide)
      simp [this]
    have hrel : isAddRelationshipOp op =
        (false, ["AddRelationshipOp missing required description"]) := by
      rw [isAddRelationshipOp]
      rw [if_neg (by simp [h1]), if_neg (by simp [h2]), if_neg (by simp [h3]),
        if_neg (by simp [h4]), if_neg (by simp [h5]), if_pos (by simp [h6])]
    refine ⟨hrel, ?_, ?_⟩
    · rw [parseStep]
      simp only [hc, hprop, hrel]
      simp
    · rw [parseStep]
      simp only [hc, hprop, hrel]
      simp

/-- Closed instantiation of the C4 amended theorem at the two concrete
minimal-shape operations. -/
theorem parse_minimal_shape_dropped_c4_witness :
    (isCreateOp createOpNoDescription =
      (false, ["CreateOp missing required description"]) ∧
      (parseStep (⟨[], [], []⟩, []) createOpNoDescription).1 = (⟨[], [], []⟩ : ParsedOperations) ∧
      (parseStep (⟨[], [], []⟩, []) createOpNoDescription).2 =
        [] ++ ["CreateOp missing required description", "Skipping invalid operation"]) ∧
    (isAddRelationshipOp relOpNoDescription =
      (false, ["AddRelationshipOp missing required description"]) ∧
      (parseStep (⟨[], [], []⟩, []) relOpNoDescription).1 = (⟨[], [], []⟩ : ParsedOperations) ∧
      (parseStep (⟨[], [], []⟩, []) relOpNoDescription).2 =
        [] ++ ["AddRelationshipOp missing required description",
          "Skipping invalid operation"]) :=
  ⟨(parse_minimal_shape_dropped_c4 createOpNoDescription (⟨[], [], []⟩, [])).1
      (by refine ⟨rfl, rfl, rfl, rfl, rfl⟩),
    (parse_minimal_shape_dropped_c4 relOpNoDescription (⟨[], [], []⟩, [])).2
      (by refine ⟨rfl, rfl, rfl, rfl, rfl, rfl⟩)⟩

/-- Source-chunk reference (`SourceRef` in src/src/types.ts). -/
structure SourceRef where
  id : String
  type_ : String
  label : String
deriving DecidableEq, Repr

/-- Value of a relationship-property bag entry.  `pvUndef` models a key
written with the JavaScript value `undefined`. -/
inductive PropValue where
  | pvStr (s : String)
  | pvNum (q : ℚ)
  | pvRef (r : SourceRef)
  | pvUndef
deriving DecidableEq, Repr

/-- One `relationships_add` entry of an additive update. -/
structure RelAdd where
  predicate : String
  peer : String
  peer_label : String
  direction : String
  props : List (String × PropValue)
deriving DecidableEq, Repr

/-- One additive update (`AdditiveUpdate` in src/src/types.ts), keyed by
`entity_id` in the builder's map. -/
structure AdditiveUpdate where
  entity_id : String
  properties : List (String × String)
  relationships_add : List RelAdd
deriving DecidableEq, Repr

/-- Insert-if-absent on the value list of the `updatesByEntity` map
(`getUpdate` creates the `{entity_id, properties: {}, relationships_add: []}`
record on first access, at the end of the iteration order). -/
def getOrInit (m : List AdditiveUpdate) (eid : String) : List AdditiveUpdate :=
  if m.any (fun u => u.entity_id == eid) then m else m ++ [⟨eid, [], []⟩]

/-- In-place mutation of the map entry with the given id. -/
def mapModify (m : List AdditiveUpdate) (eid : String)
    (f : AdditiveUpdate → AdditiveUpdate) : List AdditiveUpdate :=
  m.map (fun u => if u.entity_id == eid then f u else u)

/-- `getUpdate` followed by a mutation of the returned record. -/
def upsertUpdate (m : List AdditiveUpdate) (eid : String)
    (f : AdditiveUpdate → AdditiveUpdate) : List AdditiveUpdate :=
  mapModify (getOrInit m eid) eid f

/-- Assignment `bag[key] = value` on a property bag. -/
def propSet (props : List (String × String)) (k v : String) : List (String × String) :=
  if props.any (fun p => p.1 == k) then
    props.map (fun p => if p.1 == k then (k, v) else p)
  else props ++ [(k, v)]

/-- `Map.set` semantics: overwrite in place, append new keys. -/
def mapSet (m : List (String × String)) (k v : String) : List (String × String) :=
  if m.any (fun p => p.1 == k) then
    m.map (fun p => if p.1 == k then (k, v) else p)
  else m ++ [(k, v)]

/-- `Map.get` semantics (`none` models `undefined`). -/
def mapGet (m : List (String × String)) (k : String) : Option String :=
  (m.find? (fun p => p.1 == k)).map (fun p => p.2)

/-- JavaScript `Set.add` semantics on an insertion-ordered list. -/
def setAdd (l : List String) (x : String) : List String :=
  if l.contains x then l else l ++ [x]

/-- Property value of an optional string field (absent fields are written
as `undefined`). -/
def optPV (o : Option String) : PropValue :=
  match o with
  | some s => PropValue.pvStr s
  | none => PropValue.pvUndef

/-- The outgoing edge pushed onto the subject for one relationship
operation (`relOp.description || ''`, `relOp.confidence ?? 1.0`). -/
def relEdge (r : AddRelationshipOp) (targetId : String) (sourceRef : SourceRef) : RelAdd :=
  ⟨r.predicate, targetId, r.target, "outgoing",
    [("description", PropValue.pvStr (r.description.getD "")),
     ("source", PropValue.pvRef sourceRef),
     ("source_text", optPV r.source_text),
     ("confidence", PropValue.pvNum (r.confidence.getD 1)),
     ("context", optPV r.context)]⟩

/-- The `referenced_by` edge pushed onto an orphan target. -/
def refEdge (r : AddRelationshipOp) (subjectId : String) (sourceRef : SourceRef) : RelAdd :=
  ⟨"referenced_by", subjectId, r.subject, "outgoing",
    [("context", PropValue.pvStr r.predicate),
     ("source_text", optPV r.source_text),
     ("source", PropValue.pvRef sourceRef)]⟩

/-- The provenance edge appended to every touched entity. -/
def provEdge (sourceRef : SourceRef) (sourceChunkId now : String) : RelAdd :=
  ⟨"extracted_from", sourceChunkId, sourceRef.label, "outgoing",
    [("extracted_at", PropValue.pvStr now),
     ("source", PropValue.pvRef sourceRef)]⟩

/-- One iteration of the property loop of `buildUpdates`: resolve the
normalized entity label, skip with a warning when unknown, else set the
property on the entity's update. -/
def applyPropOp (labelToId : List (String × String)) (m : List AdditiveUpdate)
    (p : AddPropertyOp) : List AdditiveUpdate :=
  match mapGet labelToId (normalizeLabel p.entity) with
  | none => m
  | some eid =>
    upsertUpdate m eid (fun u => { u with properties := propSet u.properties p.key p.value })

/-- State of the relationship loop of `buildUpdates`: the update map, the
subject and target id sets, and the operations skipped because a label did
not resolve. -/
structure Phase2State where
  m : List AdditiveUpdate
  subjects : List String
  targets : List String
  skipped : List AddRelationshipOp

/-- One iteration of the relationship loop of `buildUpdates`. -/
def applyRelOp (labelToId : List (String × String)) (sourceRef : SourceRef)
    (st : Phase2State) (r : AddRelationshipOp) : Phase2State :=
  match mapGet labelToId (normalizeLabel r.subject) with
  | none => { st with skipped := st.skipped ++ [r] }
  | some subjectId =>
    match mapGet labelToId (normalizeLabel r.target) with
    | none => { st with skipped := st.skipped ++ [r] }
    | some targetId =>
      { m := upsertUpdate st.m subjectId
          (fun u => { u with relationships_add := u.relationships_add ++ [relEdge r targetId sourceRef] }),
        subjects := setAdd st.subjects subjectId,
        targets := setAdd st.targets targetId,
        skipped := st.skipped }

/-- One iteration of the orphan loop of `buildUpdates`: a target that never
occurs as a subject receives a `referenced_by` back edge (one per
relationship that references it). -/
def applyOrphanOp (labelToId : List (String × String)) (sourceRef : SourceRef)
    (subjects : List String) (m : List AdditiveUpdate) (r : AddRelationshipOp) :
    List AdditiveUpdate :=
  match mapGet labelToId (normalizeLabel r.subject) with
  | none => m
  | some subjectId =>
    match mapGet labelToId (normalizeLabel r.target) with
    | none => m
    | some targetId =>
      if subjects.contains targetId then m
      else upsertUpdate m targetId
        (fun u => { u with relationships_add := u.relationships_add ++ [refEdge r subjectId sourceRef] })

/-- Embedding of `buildUpdates` (job module), returning both the update list
and the relationship operations skipped for unresolved labels.  `now` models
the `new Date().toISOString()` timestamp (all edges of one call are built
within one tick).  The final loop appends the provenance edge to every map
entry, then the values are returned in insertion order. -/
def buildUpdatesFull (ops : ParsedOperations) (labelToId : List (String × String))
    (sourceRef : SourceRef) (sourceChunkId now : String) :
    List AdditiveUpdate × List AddRelationshipOp :=
  let m1 := ops.properties.foldl (applyPropOp labelToId) []
  let st2 := ops.relationships.foldl (applyRelOp labelToId sourceRef) ⟨m1, [], [], []⟩
  let m3 := ops.relationships.foldl (applyOrphanOp labelToId sourceRef st2.subjects) st2.m
  let m4 := m3.map (fun u =>
    { u with relationships_add := u.relationships_add ++ [provEdge sourceRef sourceChunkId now] })
  (m4, st2.skipped)

/-- The update list produced by `buildUpdates`. -/
def buildUpdates (ops : ParsedOperations) (labelToId : List (String × String))
    (sourceRef : SourceRef) (sourceChunkId now : String) : List AdditiveUpdate :=
  (buildUpdatesFull ops labelToId sourceRef sourceChunkId now).1

/-- C7: every update record returned by `buildUpdates` — every entity the
builder touches, via properties, as relationship subject, or as orphan
target — carries at least one outgoing `extracted_from` relationship whose
peer is the source chunk id and whose properties include `extracted_at` and
`source`. -/
theorem buildUpdates_provenance_c7 (ops : ParsedOperations)
    (labelToId : List (String × String)) (sourceRef : SourceRef)
    (sourceChunkId now : String) :
    ∀ u ∈ buildUpdates ops labelToId sourceRef sourceChunkId now,
      ∃ r ∈ u.relationships_add,
        r.predicate = "extracted_from" ∧ r.peer = sourceChunkId ∧
        r.direction = "outgoing" ∧
        ("extracted_at", PropValue.pvStr now) ∈ r.props ∧
        ("source", PropValue.pvRef sourceRef) ∈ r.props := by
  intro u hu
  rw [buildUpdates, buildUpdatesFull] at hu
  simp only [List.mem_map] at hu
  obtain ⟨u', _, rfl⟩ := hu
  refine ⟨provEdge sourceRef sourceChunkId now, ?_, rfl, rfl, rfl, ?_, ?_⟩
  · simp
  · simp [provEdge]
  · simp [provEdge]

/-- Operations and label map used to exercise the C7 theorem: one property
operation touching a single resolved entity. -/
def opsC7 : ParsedOperations := ⟨[], [⟨"Ahab", "role", "captain"⟩], []⟩

theorem buildUpdates_provenance_c7_witness :
    ∃ r ∈ (AdditiveUpdate.mk "E1" [("role", "captain")]
        [provEdge ⟨"CH1", "chunk", "Chunk 1"⟩ "CH1" "2024-01-01T00:00:00Z"]).relationships_add,
      r.predicate = "extracted_from" ∧ r.peer = "CH1" ∧
      r.direction = "outgoing" ∧
      ("extracted_at", PropValue.pvStr "2024-01-01T00:00:00Z") ∈ r.props ∧
      ("source", PropValue.pvRef ⟨"CH1", "chunk", "Chunk 1"⟩) ∈ r.props :=
  buildUpdates_provenance_c7 opsC7 [("ahab", "E1")] ⟨"CH1", "chunk", "Chunk 1"⟩
    "CH1" "2024-01-01T00:00:00Z"
    (AdditiveUpdate.mk "E1" [("role", "captain")]
      [provEdge ⟨"CH1", "chunk", "Chunk 1"⟩ "CH1" "2024-01-01T00:00:00Z"])
    (by decide)

/-- Properties of the target chunk entity that the orchestrator reads
(`TargetProperties` in src/src/types.ts); raw JSON values, since the text
fields are only used when they are non-empty strings. -/
structure TargetPropertiesM where
  text : Option JVal
  content : Option JVal
  label : Option String

/-- Target entity fetched in step 1 of the job. -/
structure TargetEntity where
  id : String
  type_ : String
  properties : TargetPropertiesM

/-- Embedding of `fetchTextContent` (job module): prefer a truthy string
`properties.text`, fall back to a truthy string `properties.content`, else
use the content-endpoint payload when it is a truthy string
(`contentData := none` models an endpoint error or missing body). -/
def fetchTextContent (props : TargetPropertiesM) (contentData : Option JVal) :
    Option String :=
  if jTruthy props.text && jIsStr props.text then jStr? props.text
  else if jTruthy props.content && jIsStr props.content then jStr? props.content
  else if jTruthy contentData && jIsStr contentData then jStr? contentData
  else none

/-- Maximum text size accepted by the orchestrator (500 KB). -/
def MAX_TEXT_SIZE : Nat := 500 * 1024

/-- Outcome of step 1 of `processJob` (fetch target, resolve text, validate
size): either a thrown invalid-input error, or the validated text with which
the job proceeds to step 2 — the construction of the prompt and the
`callGemini` request.  No failure can occur between the size checks and the
LLM request, so `readyForLLM` marks exactly the executions that issue one. -/
inductive Phase1Result where
  | failed (msg : String)
  | readyForLLM (text : String)
deriving DecidableEq, Repr

/-- Embedding of the validation prefix of `processJob` (job module, steps
1-2 up to the `callGemini` call). -/
def processJobStep1 (targetEntity : Option String) (target : Option TargetEntity)
    (contentData : Option JVal) : Phase1Result :=
  match targetEntity with
  | none => Phase1Result.failed "No target_entity in request"
  | some te =>
    match target with
    | none => Phase1Result.failed ("Failed to fetch target: " ++ te)
    | some tgt =>
      match fetchTextContent tgt.properties contentData with
      | none =>
        Phase1Result.failed "Target entity has no text content or content is too short"
      | some text =>
        if text.length < 50 then
          Phase1Result.failed "Target entity has no text content or content is too short"
        else if MAX_TEXT_SIZE < text.length then
          Phase1Result.failed "Text content exceeds maximum size"
        else Phase1Result.readyForLLM text

/-- Whether step 1 reaches the LLM request. -/
def llmIssued (r : Phase1Result) : Bool :=
  match r with
  | Phase1Result.readyForLLM _ => true
  | Phase1Result.failed _ => false

/-- C6: with the resolved text shorter than 50 characters the job throws the
invalid-input error and issues no LLM request; at exactly 50 characters and
up to 500 KB it proceeds to the LLM call; over 500 KB it throws the
oversize error and issues no LLM request. -/
theorem processJob_text_bounds_c6 (te : String) (target : TargetEntity)
    (contentData : Option JVal) (text : String)
    (htext : fetchTextContent target.properties contentData = some text) :
    (text.length < 50 →
      processJobStep1 (some te) (some target) contentData =
        Phase1Result.failed "Target entity has no text content or content is too short" ∧
      llmIssued (processJobStep1 (some te) (some target) contentData) = false) ∧
    (50 ≤ text.length → text.length ≤ MAX_TEXT_SIZE →
      processJobStep1 (some te) (some target) contentData = Phase1Result.readyForLLM text ∧
      llmIssued (processJobStep1 (some te) (some target) contentData) = true) ∧
    (MAX_TEXT_SIZE < text.length →
      processJobStep1 (some te) (some target) contentData =
        Phase1Result.failed "Text content exceeds maximum size" ∧
      llmIssued (processJobStep1 (some te) (some target) contentData) = false) := by
  have hrun : processJobStep1 (some te) (some target) contentData =
      (if text.length < 50 then
        Phase1Result.failed "Target entity has no text content or content is too short"
      else if MAX_TEXT_SIZE < text.length then
        Phase1Result.failed "Text content exceeds maximum size"
      else Phase1Result.readyForLLM text) := by
    rw [processJobStep1, htext]
  have hM : MAX_TEXT_SIZE = 500 * 1024 := rfl
  refine ⟨?_, ?_, ?_⟩
  · intro h
    rw [hrun, if_pos h]
    exact ⟨rfl, rfl⟩
  · intro h1 h2
    rw [hrun, if_neg (by omega), if_neg (by omega)]
    exact ⟨rfl, rfl⟩
  · intro h
    rw [hrun, if_neg (by omega), if_pos h]
    exact ⟨rfl, rfl⟩

/-- Text of exactly 49 characters. -/
def text49 : String := String.mk (List.replicate 49 'a')

/-- Text of exactly 50 characters. -/
def text50 : String := String.mk (List.replicate 50 'a')

/-- Text of exactly 500 KB. -/
def textMax : String := String.mk (List.replicate (500 * 1024) 'a')

/-- Text of 500 KB plus one character. -/
def textOver : String := String.mk (List.replicate (500 * 1024 + 1) 'a')

theorem replicate_text_length (n : Nat) : (String.mk (List.replicate n 'a')).length = n := by
  simp [String.length]

theorem replicate_text_ne_empty (n : Nat) (h : 0 < n) :
    String.mk (List.replicate n 'a') ≠ "" := by
  intro hc
  have := congrArg String.length hc
  rw [replicate_text_length] at this
  simp [String.length] at this
  omega

/-- Chunk entity whose `properties.text` is the given string. -/
def targetOf (s : String) : TargetEntity :=
  ⟨"T1", "chunk", ⟨some (JVal.str s), none, some "Chunk"⟩⟩

theorem fetchTextContent_textField (s : String) (h : s ≠ "") (content : Option JVal)
    (label : Option String) (cd : Option JVal) :
    fetchTextContent ⟨some (JVal.str s), content, label⟩ cd = some s := by
  rw [fetchTextContent]
  have h1 : (jTruthy (some (JVal.str s)) && jIsStr (some (JVal.str s))) = true := by
    simp [jTruthy, jIsStr, h]
  rw [if_pos h1]
  rfl

/-- Closed instantiation of the C6 theorem at the four boundary lengths:
49 rejects, 50 proceeds, 500 KB proceeds, 500 KB + 1 rejects. -/
theorem processJob_text_bounds_c6_witness :
    (processJobStep1 (some "T1") (some (targetOf text49)) none =
        Phase1Result.failed "Target entity has no text content or content is too short" ∧
      llmIssued (processJobStep1 (some "T1") (some (targetOf text49)) none) = false) ∧
    (processJobStep1 (some "T1") (some (targetOf text50)) none =
        Phase1Result.readyForLLM text50 ∧
      llmIssued (processJobStep1 (some "T1") (some (targetOf text50)) none) = true) ∧
    (processJobStep1 (some "T1") (some (targetOf textMax)) none =
        Phase1Result.readyForLLM textMax ∧
      llmIssued (processJobStep1 (some "T1") (some (targetOf textMax)) none) = true) ∧
    (processJobStep1 (some "T1") (some (targetOf textOver)) none =
        Phase1Result.failed "Text content exceeds maximum size" ∧
      llmIssued (processJobStep1 (some "T1") (some (targetOf textOver)) none) = false) := by
  have h49 := fetchTextContent_textField text49 (replicate_text_ne_empty 49 (by omega))
    none (some "Chunk") none
  have h50 := fetchTextContent_textField text50 (replicate_text_ne_empty 50 (by omega))
    none (some "Chunk") none
  have hMax := fetchTextContent_textField textMax
    (replicate_text_ne_empty (500 * 1024) (by omega)) none (some "Chunk") none
  have hOver := fetchTextContent_textField textOver
    (replicate_text_ne_empty (500 * 1024 + 1) (by omega)) none (some "Chunk") none
  have l49 : text49.length = 49 := replicate_text_length 49
  have l50 : text50.length = 50 := replicate_text_length 50
  have lMax : textMax.length = 500 * 1024 := replicate_text_length (500 * 1024)
  have lOver : textOver.length = 500 * 1024 + 1 := replicate_text_length (500 * 1024 + 1)
  have hM : MAX_TEXT_SIZE = 500 * 1024 := rfl
  exact ⟨(processJob_text_bounds_c6 "T1" (targetOf text49) none text49 h49).1 (by omega),
    (processJob_text_bounds_c6 "T1" (targetOf text50) none text50 h50).2.1 (by omega) (by omega),
    (processJob_text_bounds_c6 "T1" (targetOf textMax) none textMax hMax).2.1 (by omega) (by omega),
    (processJob_text_bounds_c6 "T1" (targetOf textOver) none textOver hOver).2.2 (by omega)⟩

/-- Embedding of `collectReferencedLabels` (src/src/parse.ts): the labels of
all creates, then property entities, then relationship subjects and targets,
in `Set` insertion order. -/
def collectReferencedLabels (ops : ParsedOperations) : List String :=
  let s1 := ops.creates.foldl (fun acc c => setAdd acc c.label) []
  let s2 := ops.properties.foldl (fun acc p => setAdd acc p.entity) s1
  ops.relationships.foldl (fun acc r => setAdd (setAdd acc r.subject) r.target) s2

/-- One iteration of the auto-create loop of `processJob` (job module):
append a generic create for a referenced label whose normalized form has no
create yet, and record the normalized form to block duplicates. -/
def autoCreateStep (acc : List String × List CreateOp) (label : String) :
    List String × List CreateOp :=
  let normalized := normalizeLabel label
  if acc.1.contains normalized then acc
  else (acc.1 ++ [normalized], acc.2 ++ [⟨normalized, "entity", none, none⟩])

/-- Embedding of the auto-create step of `processJob`: seed the explicit set
with the normalized labels of the parsed creates, then walk every referenced
label. -/
def autoCreate (ops : ParsedOperations) : ParsedOperations :=
  let explicit := ops.creates.foldl (fun acc c => setAdd acc (normalizeLabel c.label)) []
  let res := (collectReferencedLabels ops).foldl autoCreateStep (explicit, ops.creates)
  { ops with creates := res.2 }

/-- Entity request passed to the check-create engine. -/
structure EntityReq where
  label : String
  type_ : String
deriving DecidableEq, Repr

/-- The `entitiesToCreate` projection of `processJob`. -/
def entitiesToCreate (ops : ParsedOperations) : List EntityReq :=
  ops.creates.map (fun c => ⟨c.label, c.entity_type⟩)

/-- Deduplication key of `dedupeByLabelType`. -/
def dedupeKey (e : EntityReq) : String := e.type_ ++ ":" ++ normalizeLabel e.label

/-- Embedding of `dedupeByLabelType` (check-create module): keep the first
entity for each `type:normalizedLabel` key. -/
def dedupeByLabelType (entities : List EntityReq) : List EntityReq :=
  (entities.foldl
    (fun acc e =>
      if acc.1.contains (dedupeKey e) then acc
      else (acc.1 ++ [dedupeKey e], acc.2 ++ [e]))
    ([], [])).2

/-- Abstract outcome of one `checkCreate` call: the surviving entity id and
the `isNew` classification, both determined by the interleaving with
concurrent workers. -/
structure CCOutcome where
  entityId : String
  isNew : Bool

/-- Model of `batchCheckCreate` (check-create module) for executions in
which every `checkCreate` resolves without throwing: the input is deduped by
`type:normalizedLabel`, and each surviving request yields one result whose
`label` field is the normalized label and whose `type` is the request type —
every return site of `checkCreate` produces exactly that shape.  The
bounded-concurrency runner collects results in completion order, an
arbitrary permutation of this list; the claims proved below depend only on
membership, which permutation cannot change. -/
def batchCheckCreateModel (oracle : EntityReq → CCOutcome) (entities : List EntityReq) :
    List CheckCreateResult :=
  (dedupeByLabelType entities).map
    (fun e => ⟨(oracle e).entityId, (oracle e).isNew, normalizeLabel e.label, e.type_⟩)

/-- The `labelToId` map built by `processJob` from the check-create
results. -/
def buildLabelToId (results : List CheckCreateResult) : List (String × String) :=
  results.foldl (fun m r => mapSet m r.label r.entityId) []

theorem setAdd_mem {l : List String} {x y : String} :
    y ∈ setAdd l x ↔ y ∈ l ∨ y = x := by
  rw [setAdd]
  split
  · rename_i h
    constructor
    · exact Or.inl
    · intro hy
      rcases hy with hy | hy
      · exact hy
      · subst hy
        simpa using h
  · simp

theorem mem_foldl_setAdd {α : Type} (g : α → String) (xs : List α) :
    ∀ (init : List String) (y : String),
      y ∈ xs.foldl (fun acc a => setAdd acc (g a)) init ↔
        y ∈ init ∨ ∃ a ∈ xs, y = g a := by
  induction xs with
  | nil => intro init y; simp
  | cons x xs ih =>
    intro init y
    rw [List.foldl_cons, ih]
    rw [setAdd_mem]
    constructor
    · intro h
      rcases h with (h | h) | h
      · exact Or.inl h
      · exact Or.inr ⟨x, List.mem_cons_self x xs, h⟩
      · obtain ⟨a, ha, hy⟩ := h
        exact Or.inr ⟨a, List.mem_cons_of_mem x ha, hy⟩
    · intro h
      rcases h with h | h
      · exact Or.inl (Or.inl h)
      · obtain ⟨a, ha, hy⟩ := h
        rcases List.mem_cons.mp ha with ha | ha
        · subst ha
          exact Or.inl (Or.inr hy)
        · exact Or.inr ⟨a, ha, hy⟩

theorem mem_foldl_setAdd2 (xs : List AddRelationshipOp) :
    ∀ (init : List String) (y : String),
      y ∈ xs.foldl (fun acc r => setAdd (setAdd acc r.subject) r.target) init ↔
        y ∈ init ∨ ∃ r ∈ xs, y = r.subject ∨ y = r.target := by
  induction xs with
  | nil => intro init y; simp
  | cons x xs ih =>
    intro init y
    rw [List.foldl_cons, ih, setAdd_mem, setAdd_mem]
    constructor
    · intro h
      rcases h with ((h | h) | h) | h
      · exact Or.inl h
      · exact Or.inr ⟨x, List.mem_cons_self x xs, Or.inl h⟩
      · exact Or.inr ⟨x, List.mem_cons_self x xs, Or.inr h⟩
      · obtain ⟨r, hr, hy⟩ := h
        exact Or.inr ⟨r, List.mem_cons_of_mem x hr, hy⟩
    · intro h
      rcases h with h | h
      · exact Or.inl (Or.inl (Or.inl h))
      · obtain ⟨r, hr, hy⟩ := h
        rcases List.mem_cons.mp hr with hr | hr
        · subst hr
          rcases hy with hy | hy
          · exact Or.inl (Or.inl (Or.inr hy))
          · exact Or.inl (Or.inr hy)
        · exact Or.inr ⟨r, hr, hy⟩

theorem mem_collectReferencedLabels {ops : ParsedOperations} {y : String} :
    y ∈ collectReferencedLabels ops ↔
      (∃ c ∈ ops.creates, y = c.label) ∨ (∃ p ∈ ops.properties, y = p.entity) ∨
      (∃ r ∈ ops.relationships, y = r.subject ∨ y = r.target) := by
  rw [collectReferencedLabels]
  rw [mem_foldl_setAdd2, mem_foldl_setAdd, mem_foldl_setAdd]
  simp [or_assoc]

/-- The generic create appended by the auto-create loop for a normalized
label. -/
def autoCreateOp (n : String) : CreateOp := ⟨n, "entity", none, none⟩

theorem autoCreate_fold_spec (labels : List String) :
    ∀ st : List String × List CreateOp,
      ∃ newLabels : List String,
        (labels.foldl autoCreateStep st).1 = st.1 ++ newLabels ∧
        (labels.foldl autoCreateStep st).2 = st.2 ++ newLabels.map autoCreateOp ∧
        newLabels.Nodup ∧
        (∀ n ∈ newLabels, n ∉ st.1 ∧ ∃ l ∈ labels, n = normalizeLabel l) := by
  induction labels with
  | nil =>
    intro st
    exact ⟨[], by simp, by simp, List.nodup_nil, by simp⟩
  | cons l ls ih =>
    intro st
    rw [List.foldl_cons]
    by_cases hmem : st.1.contains (normalizeLabel l)
    · have hstep : autoCreateStep st l = st := by
        rw [autoCreateStep]
        simp only [hmem]
        rfl
      rw [hstep]
      obtain ⟨newLabels, h1, h2, h3, h4⟩ := ih st
      refine ⟨newLabels, h1, h2, h3, ?_⟩
      intro n hn
      obtain ⟨hn1, la, hla, hne⟩ := h4 n hn
      exact ⟨hn1, la, List.mem_cons_of_mem l hla, hne⟩
    · have hstep : autoCreateStep st l =
          (st.1 ++ [normalizeLabel l], st.2 ++ [autoCreateOp (normalizeLabel l)]) := by
        rw [autoCreateStep]
        simp only [hmem]
        rfl
      rw [hstep]
      obtain ⟨newLabels, h1, h2, h3, h4⟩ :=
        ih (st.1 ++ [normalizeLabel l], st.2 ++ [autoCreateOp (normalizeLabel l)])
      refine ⟨normalizeLabel l :: newLabels, ?_, ?_, ?_, ?_⟩
      · rw [h1]
        simp
      · rw [h2]
        simp
      · refine List.nodup_cons.mpr ⟨?_, h3⟩
        intro hc
        have := (h4 _ hc).1
        simp at this
      · intro n hn
        rcases List.mem_cons.mp hn with hn | hn
        · subst hn
          refine ⟨?_, l, List.mem_cons_self l ls, rfl⟩
          intro hc
          exact hmem (by simpa using hc)
        · obtain ⟨hn1, la, hla, hne⟩ := h4 n hn
          refine ⟨?_, la, List.mem_cons_of_mem l hla, hne⟩
          intro hc
          exact hn1 (List.mem_append_left _ hc)

/-- C10: the auto-create step appends only operations of the exact shape
`{op: create, label: normalized referenced label, entity_type: entity}`, at
most one per distinct normalized label, and never for a normalized label
that an explicit create already covers; the explicit creates are kept
unchanged in front. -/
theorem autoCreate_unique_per_label_c10 (ops : ParsedOperations) :
    (autoCreate ops).creates.take ops.creates.length = ops.creates ∧
    List.Nodup (((autoCreate ops).creates.drop ops.creates.length).map
      (fun a => a.label)) ∧
    (∀ a ∈ (autoCreate ops).creates.drop ops.creates.length,
      a.entity_type = "entity" ∧ a.description = none ∧ a.properties = none ∧
      (∃ l ∈ collectReferencedLabels ops, a.label = normalizeLabel l) ∧
      a.label = normalizeLabel a.label ∧
      (∀ c ∈ ops.creates, normalizeLabel c.label ≠ a.label)) := by
  obtain ⟨nl, h1, h2, h3, h4⟩ := autoCreate_fold_spec (collectReferencedLabels ops)
    (ops.creates.foldl (fun acc c => setAdd acc (normalizeLabel c.label)) [], ops.creates)
  have hcreates : (autoCreate ops).creates = ops.creates ++ nl.map autoCreateOp := by
    rw [autoCreate]
    exact h2
  have hdrop : (autoCreate ops).creates.drop ops.creates.length = nl.map autoCreateOp := by
    rw [hcreates, List.drop_left]
  refine ⟨?_, ?_, ?_⟩
  · rw [hcreates, List.take_left]
  · rw [hdrop]
    have hmm : (nl.map autoCreateOp).map (fun a => a.label) = nl := by
      rw [List.map_map]
      have : ((fun a => a.label) ∘ autoCreateOp) = id := by
        funext n
        rfl
      rw [this, List.map_id]
    rw [hmm]
    exact h3
  · intro a ha
    rw [hdrop] at ha
    obtain ⟨n, hn, rfl⟩ := List.mem_map.mp ha
    obtain ⟨hnotin, l, hl, hnl⟩ := h4 n hn
    refine ⟨rfl, rfl, rfl, ⟨l, hl, hnl⟩, ?_, ?_⟩
    · show n = normalizeLabel n
      rw [hnl, normalizeLabel_idem_str]
    · intro c hc
      have hmem : normalizeLabel c.label ∈
          ops.creates.foldl (fun acc c => setAdd acc (normalizeLabel c.label)) [] := by
        rw [mem_foldl_setAdd]
        exact Or.inr ⟨c, hc, rfl⟩
      intro heq
      rw [heq] at hmem
      exact hnotin hmem

theorem autoCreate_fold_covers (labels : List String) :
    ∀ st, ∀ l ∈ labels, normalizeLabel l ∈ (labels.foldl autoCreateStep st).1 := by
  induction labels with
  | nil => simp
  | cons x xs ih =>
    intro st l hl
    rw [List.foldl_cons]
    rcases List.mem_cons.mp hl with hl | hl
    · subst hl
      have hbase : normalizeLabel l ∈ (autoCreateStep st l).1 := by
        rw [autoCreateStep]
        by_cases hmem : st.1.contains (normalizeLabel l)
        · simp only [hmem, if_pos]
          simpa using hmem
        · simp only [hmem]
          simp
      obtain ⟨nl, h1, _, _, _⟩ := autoCreate_fold_spec xs (autoCreateStep st l)
      rw [h1]
      exact List.mem_append_left _ hbase
    · exact ih _ l hl

theorem autoCreate_covers (ops : ParsedOperations) :
    ∀ l ∈ collectReferencedLabels ops,
      ∃ c ∈ (autoCreate ops).creates, normalizeLabel c.label = normalizeLabel l := by
  intro l hl
  obtain ⟨nl, h1, h2, h3, h4⟩ := autoCreate_fold_spec (collectReferencedLabels ops)
    (ops.creates.foldl (fun acc c => setAdd acc (normalizeLabel c.label)) [], ops.creates)
  have hcreates : (autoCreate ops).creates = ops.creates ++ nl.map autoCreateOp := by
    rw [autoCreate]
    exact h2
  have hin : normalizeLabel l ∈
      (ops.creates.foldl (fun acc c => setAdd acc (normalizeLabel c.label)) []) ++ nl := by
    have hcov := autoCreate_fold_covers (collectReferencedLabels ops)
      (ops.creates.foldl (fun acc c => setAdd acc (normalizeLabel c.label)) [], ops.creates)
      l hl
    rw [h1] at hcov
    exact hcov
  rcases List.mem_append.mp hin with hin | hin
  · rw [mem_foldl_setAdd] at hin
    rcases hin with hin | hin
    · simp at hin
    · obtain ⟨c, hc, heq⟩ := hin
      exact ⟨c, hcreates ▸ List.mem_append_left _ hc, heq.symm⟩
  · refine ⟨autoCreateOp (normalizeLabel l), ?_, ?_⟩
    · rw [hcreates]
      exact List.mem_append_right _ (List.mem_map.mpr ⟨normalizeLabel l, hin, rfl⟩)
    · show normalizeLabel (normalizeLabel l) = normalizeLabel l
      exact normalizeLabel_idem_str l

theorem normalizeLabel_no_colon (s : String) : ':' ∉ (normalizeLabel s).data := by
  intro h
  have hchar : keepChar ':' = true := normalizeLabelL_chars_keep ':' h
  exact absurd hchar (by decide)

theorem append_colon_inj {a b c d : List Char} (hb : ':' ∉ b) (hd : ':' ∉ d) :
    a ++ ':' :: b = c ++ ':' :: d → a = c ∧ b = d := by
  induction a generalizing c with
  | nil =>
    intro h
    cases c with
    | nil =>
      simp only [List.nil_append, List.cons.injEq] at h
      exact ⟨rfl, h.2⟩
    | cons y ys =>
      simp only [List.nil_append, List.cons_append, List.cons.injEq] at h
      exfalso
      apply hb
      rw [h.2]
      exact List.mem_append_right _ (List.mem_cons_self _ _)
  | cons x xs ih =>
    intro h
    cases c with
    | nil =>
      simp only [List.cons_append, List.nil_append, List.cons.injEq] at h
      exfalso
      apply hd
      rw [← h.2]
      exact List.mem_append_right _ (List.mem_cons_self _ _)
    | cons y ys =>
      simp only [List.cons_append, List.cons.injEq] at h
      obtain ⟨hxy, hrest⟩ := h
      obtain ⟨h1, h2⟩ := ih hrest
      exact ⟨by rw [hxy, h1], h2⟩

theorem string_append_data (a b : String) : (a ++ b).data = a.data ++ b.data := rfl

theorem dedupeKey_label_inj {u e : EntityReq} (h : dedupeKey u = dedupeKey e) :
    normalizeLabel u.label = normalizeLabel e.label := by
  have hdata := congrArg String.data h
  rw [dedupeKey, dedupeKey, string_append_data, string_append_data,
    string_append_data, string_append_data] at hdata
  have hcolon : (":" : String).data = [':'] := rfl
  rw [hcolon] at hdata
  have h1 : u.type_.data ++ ':' :: (normalizeLabel u.label).data =
      e.type_.data ++ ':' :: (normalizeLabel e.label).data := by
    simpa [List.append_assoc] using hdata
  have := append_colon_inj (normalizeLabel_no_colon u.label)
    (normalizeLabel_no_colon e.label) h1
  exact string_data_inj this.2

theorem dedupe_fold_spec (es : List EntityReq) :
    ∀ (keys : List String) (kept : List EntityReq),
      (∀ k ∈ keys, ∃ u ∈ kept, dedupeKey u = k) →
      (∀ k ∈ (es.foldl
          (fun acc e =>
            if acc.1.contains (dedupeKey e) then acc
            else (acc.1 ++ [dedupeKey e], acc.2 ++ [e])) (keys, kept)).1,
        ∃ u ∈ (es.foldl
          (fun acc e =>
            if acc.1.contains (dedupeKey e) then acc
            else (acc.1 ++ [dedupeKey e], acc.2 ++ [e])) (keys, kept)).2,
          dedupeKey u = k) ∧
      (∀ e ∈ es, ∃ u ∈ (es.foldl
          (fun acc e =>
            if acc.1.contains (dedupeKey e) then acc
            else (acc.1 ++ [dedupeKey e], acc.2 ++ [e])) (keys, kept)).2,
        dedupeKey u = dedupeKey e) ∧
      (∀ u ∈ kept, u ∈ (es.foldl
          (fun acc e =>
            if acc.1.contains (dedupeKey e) then acc
            else (acc.1 ++ [dedupeKey e], acc.2 ++ [e])) (keys, kept)).2) := by
  induction es with
  | nil =>
    intro keys kept hinv
    refine ⟨hinv, by simp, fun u hu => hu⟩
  | cons e es ih =>
    intro keys kept hinv
    rw [List.foldl_cons]
    by_cases hmem : keys.contains (dedupeKey e)
    · have hstep : (if (keys, kept).1.contains (dedupeKey e) then (keys, kept)
          else ((keys, kept).1 ++ [dedupeKey e], (keys, kept).2 ++ [e])) = (keys, kept) := by
        simp only [hmem, if_pos]
      rw [hstep]
      obtain ⟨g1, g2, g3⟩ := ih keys kept hinv
      refine ⟨g1, ?_, g3⟩
      intro f hf
      rcases List.mem_cons.mp hf with hf | hf
      · subst hf
        obtain ⟨u, hu, hku⟩ := hinv (dedupeKey f) (by simpa using hmem)
        exact ⟨u, g3 u hu, hku⟩
      · exact g2 f hf
    · have hstep : (if (keys, kept).1.contains (dedupeKey e) then (keys, kept)
          else ((keys, kept).1 ++ [dedupeKey e], (keys, kept).2 ++ [e])) =
          (keys ++ [dedupeKey e], kept ++ [e]) := by
        simp only [hmem, if_neg]
        rfl
      rw [hstep]
      have hinv' : ∀ k ∈ keys ++ [dedupeKey e], ∃ u ∈ kept ++ [e], dedupeKey u = k := by
        intro k hk
        rcases List.mem_append.mp hk with hk | hk
        · obtain ⟨u, hu, hku⟩ := hinv k hk
          exact ⟨u, List.mem_append_left _ hu, hku⟩
        · simp only [List.mem_singleton] at hk
          subst hk
          exact ⟨e, List.mem_append_right _ (List.mem_singleton.mpr rfl), rfl⟩
      obtain ⟨g1, g2, g3⟩ := ih (keys ++ [dedupeKey e]) (kept ++ [e]) hinv'
      refine ⟨g1, ?_, ?_⟩
      · intro f hf
        rcases List.mem_cons.mp hf with hf | hf
        · subst hf
          exact ⟨f, g3 f (List.mem_append_right _ (List.mem_singleton.mpr rfl)), rfl⟩
        · exact g2 f hf
      · intro u hu
        exact g3 u (List.mem_append_left _ hu)

theorem dedupe_covers (es : List EntityReq) :
    ∀ e ∈ es, ∃ u ∈ dedupeByLabelType es, dedupeKey u = dedupeKey e := by
  intro e he
  rw [dedupeByLabelType]
  exact (dedupe_fold_spec es [] [] (by simp)).2.1 e he

theorem mapGet_isSome_iff {m : List (String × String)} {k : String} :
    (mapGet m k).isSome = true ↔ ∃ p ∈ m, p.1 = k := by
  rw [mapGet]
  induction m with
  | nil => simp
  | cons p ps ih =>
    by_cases hp : p.1 == k
    · simp only [List.find?_cons, hp]
      simp only [Option.map_some', Option.isSome_some, true_iff]
      exact ⟨p, List.mem_cons_self _ _, by simpa using hp⟩
    · have hp' : (p.1 == k) = false := by simpa using hp
      simp only [List.find?_cons, hp']
      rw [ih]
      constructor
      · intro ⟨q, hq, hqk⟩
        exact ⟨q, List.mem_cons_of_mem _ hq, hqk⟩
      · intro ⟨q, hq, hqk⟩
        rcases List.mem_cons.mp hq with hq | hq
        · subst hq
          exact absurd (by simpa using hqk) hp
        · exact ⟨q, hq, hqk⟩

theorem mapSet_keys {m : List (String × String)} {k v : String} {k0 : String} :
    (∃ p ∈ mapSet m k v, p.1 = k0) ↔ (∃ p ∈ m, p.1 = k0) ∨ k0 = k := by
  rw [mapSet]
  split
  · rename_i hany
    constructor
    · intro ⟨p, hp, hpk⟩
      obtain ⟨q, hq, hqe⟩ := List.mem_map.mp hp
      by_cases hqk : q.1 == k
      · rw [if_pos hqk] at hqe
        right
        rw [← hpk, ← hqe]
      · rw [if_neg hqk] at hqe
        exact Or.inl ⟨q, hq, by rw [← hqe] at hpk; exact hpk⟩
    · intro h
      rcases h with ⟨p, hp, hpk⟩ | h
      · by_cases hpk2 : p.1 == k
        · refine ⟨(k, v), List.mem_map.mpr ⟨p, hp, by rw [if_pos hpk2]⟩, ?_⟩
          have : p.1 = k := by simpa using hpk2
          rw [← hpk, ← this]
        · exact ⟨p, List.mem_map.mpr ⟨p, hp, by rw [if_neg hpk2]⟩, hpk⟩
      · subst h
        simp only [List.any_eq_true] at hany
        obtain ⟨q, hq, hqk⟩ := hany
        refine ⟨(k0, v), List.mem_map.mpr ⟨q, hq, by rw [if_pos hqk]⟩, rfl⟩
  · constructor
    · intro ⟨p, hp, hpk⟩
      rcases List.mem_append.mp hp with hp | hp
      · exact Or.inl ⟨p, hp, hpk⟩
      · simp only [List.mem_singleton] at hp
        subst hp
        exact Or.inr hpk.symm
    · intro h
      rcases h with ⟨p, hp, hpk⟩ | h
      · exact ⟨p, List.mem_append_left _ hp, hpk⟩
      · exact ⟨(k, v), List.mem_append_right _ (List.mem_singleton.mpr rfl), h.symm⟩

theorem buildLabelToId_keys (results : List CheckCreateResult) :
    ∀ (acc : List (String × String)) (k : String),
      (∃ p ∈ results.foldl (fun m r => mapSet m r.label r.entityId) acc, p.1 = k) ↔
        (∃ p ∈ acc, p.1 = k) ∨ ∃ r ∈ results, r.label = k := by
  induction results with
  | nil => intro acc k; simp
  | cons r rs ih =>
    intro acc k
    rw [List.foldl_cons, ih]
    rw [mapSet_keys]
    constructor
    · intro h
      rcases h with (h | h) | h
      · exact Or.inl h
      · exact Or.inr ⟨r, List.mem_cons_self _ _, h.symm⟩
      · obtain ⟨q, hq, hqk⟩ := h
        exact Or.inr ⟨q, List.mem_cons_of_mem _ hq, hqk⟩
    · intro h
      rcases h with h | h
      · exact Or.inl (Or.inl h)
      · obtain ⟨q, hq, hqk⟩ := h
        rcases List.mem_cons.mp hq with hq | hq
        · subst hq
          exact Or.inl (Or.inr hqk.symm)
        · exact Or.inr ⟨q, hq, hqk⟩

theorem buildLabelToId_isSome {results : List CheckCreateResult} {k : String}
    (h : ∃ r ∈ results, r.label = k) :
    (mapGet (buildLabelToId results) k).isSome = true := by
  rw [mapGet_isSome_iff, buildLabelToId, buildLabelToId_keys]
  exact Or.inr h

theorem applyRelOp_skipped {labelToId : List (String × String)} {sourceRef : SourceRef}
    {st : Phase2State} {r : AddRelationshipOp}
    (hs : (mapGet labelToId (normalizeLabel r.subject)).isSome = true)
    (ht : (mapGet labelToId (normalizeLabel r.target)).isSome = true) :
    (applyRelOp labelToId sourceRef st r).skipped = st.skipped := by
  obtain ⟨sid, hsid⟩ := Option.isSome_iff_exists.mp hs
  obtain ⟨tid, htid⟩ := Option.isSome_iff_exists.mp ht
  rw [applyRelOp, hsid, htid]

theorem phase2_skipped_nil (labelToId : List (String × String)) (sourceRef : SourceRef)
    (rels : List AddRelationshipOp)
    (h : ∀ r ∈ rels, (mapGet labelToId (normalizeLabel r.subject)).isSome = true ∧
      (mapGet labelToId (normalizeLabel r.target)).isSome = true) :
    ∀ st, (rels.foldl (applyRelOp labelToId sourceRef) st).skipped = st.skipped := by
  induction rels with
  | nil => intro st; rfl
  | cons r rs ih =>
    intro st
    rw [List.foldl_cons]
    have hr := h r (List.mem_cons_self _ _)
    have hrs : ∀ q ∈ rs, (mapGet labelToId (normalizeLabel q.subject)).isSome = true ∧
        (mapGet labelToId (normalizeLabel q.target)).isSome = true :=
      fun q hq => h q (List.mem_cons_of_mem _ hq)
    rw [ih hrs (applyRelOp labelToId sourceRef st r)]
    exact applyRelOp_skipped hr.1 hr.2

/-- C9: provided every `checkCreate` of the batch completes without error,
no relationship operation is skipped by `buildUpdates`: the auto-create step
guarantees a create for the normalized label of every relationship subject
and target, the batch returns one result per surviving deduped request with
the normalized label in its `label` field, and therefore both `labelToId`
lookups succeed for every relationship operation and the update builder
skips none of them. -/
theorem pipeline_no_relationship_skipped_c9 (ops : ParsedOperations)
    (oracle : EntityReq → CCOutcome) (sourceRef : SourceRef) (chunkId now : String) :
    (∀ r ∈ (autoCreate ops).relationships,
      (mapGet (buildLabelToId (batchCheckCreateModel oracle
          (entitiesToCreate (autoCreate ops)))) (normalizeLabel r.subject)).isSome = true ∧
      (mapGet (buildLabelToId (batchCheckCreateModel oracle
          (entitiesToCreate (autoCreate ops)))) (normalizeLabel r.target)).isSome = true) ∧
    (buildUpdatesFull (autoCreate ops)
      (buildLabelToId (batchCheckCreateModel oracle (entitiesToCreate (autoCreate ops))))
      sourceRef chunkId now).2 = [] := by
  have hrels : (autoCreate ops).relationships = ops.relationships := rfl
  have hlab : ∀ l ∈ collectReferencedLabels ops,
      (mapGet (buildLabelToId (batchCheckCreateModel oracle
        (entitiesToCreate (autoCreate ops)))) (normalizeLabel l)).isSome = true := by
    intro l hl
    obtain ⟨c, hc, hcl⟩ := autoCreate_covers ops l hl
    have he : (⟨c.label, c.entity_type⟩ : EntityReq) ∈ entitiesToCreate (autoCreate ops) :=
      List.mem_map.mpr ⟨c, hc, rfl⟩
    obtain ⟨u, hu, hku⟩ := dedupe_covers (entitiesToCreate (autoCreate ops)) _ he
    have hul : normalizeLabel u.label = normalizeLabel l := by
      have := dedupeKey_label_inj hku
      simp only [] at this
      rw [this, ← hcl]
    apply buildLabelToId_isSome
    refine ⟨⟨(oracle u).entityId, (oracle u).isNew, normalizeLabel u.label, u.type_⟩,
      List.mem_map.mpr ⟨u, hu, rfl⟩, hul⟩
  have hmain : ∀ r ∈ (autoCreate ops).relationships,
      (mapGet (buildLabelToId (batchCheckCreateModel oracle
          (entitiesToCreate (autoCreate ops)))) (normalizeLabel r.subject)).isSome = true ∧
      (mapGet (buildLabelToId (batchCheckCreateModel oracle
          (entitiesToCreate (autoCreate ops)))) (normalizeLabel r.target)).isSome = true := by
    intro r hr
    rw [hrels] at hr
    constructor
    · apply hlab
      rw [mem_collectReferencedLabels]
      exact Or.inr (Or.inr ⟨r, hr, Or.inl rfl⟩)
    · apply hlab
      rw [mem_collectReferencedLabels]
      exact Or.inr (Or.inr ⟨r, hr, Or.inr rfl⟩)
  refine ⟨hmain, ?_⟩
  rw [buildUpdatesFull]
  exact phase2_skipped_nil _ sourceRef _ hmain _

/-- Operations used to exercise the C9 theorem: one relationship whose
subject and target have no explicit create. -/
def opsC9 : ParsedOperations :=
  ⟨[], [], [⟨"Ahab", "hunts", "Moby Dick", some "the hunt", none, none, none, none, none⟩]⟩

/-- Oracle assigning a deterministic id to every check-create request. -/
def oracleC9 : EntityReq → CCOutcome := fun e => ⟨"E-" ++ e.label, true⟩

/-- Closed instantiation of the C9 theorem: on the concrete operations the
update builder skips no relationship. -/
theorem pipeline_no_relationship_skipped_c9_witness :
    (buildUpdatesFull (autoCreate opsC9)
      (buildLabelToId (batchCheckCreateModel oracleC9 (entitiesToCreate (autoCreate opsC9))))
      ⟨"CH1", "chunk", "Chunk 1"⟩ "CH1" "2024-01-01T00:00:00Z").2 = [] :=
  (pipeline_no_relationship_skipped_c9 opsC9 oracleC9
    ⟨"CH1", "chunk", "Chunk 1"⟩ "CH1" "2024-01-01T00:00:00Z").2

/-- C5 counterexample: `extractQuote` can return a string that does not
contain the `quote_start` marker — the end marker `alpha` matches inside the
start marker's span `alpha beta`, truncating the quote to `alpha`, which
contains `alpha beta` neither literally nor after whitespace
normalization. -/
theorem extractQuote_containment_c5_counterexample :
    extractQuote ("alpha beta gamma".data) (some ("alpha beta".data))
        (some ("alpha".data)) = some ("alpha".data) ∧
    containsSub ("alpha".data) ("alpha beta".data) = false ∧
    containsSub (normalizeWhitespaceL ("alpha".data))
      (normalizeWhitespaceL ("alpha beta".data)) = false := by
  refine ⟨by decide, by decide, by decide⟩

/-- C5 amended: when `extractQuote` returns a non-null string, that string
is the whitespace normalization of a contiguous slice of the source text (so
it appears in the text modulo whitespace normalization), the slice ends
exactly at the end of a flexible — case-insensitive, whitespace-flexible —
match of `quote_end`, a flexible match of `quote_start` begins at the
slice's start, and the slice is at most 500 characters long.  Containment of
the literal markers does not hold in general: matching is case-insensitive,
and the end marker may match inside the start marker's span, cutting the
start marker off. -/
theorem extractQuote_slice_c5 (text qs qe r : List Char)
    (h : extractQuote text (some qs) (some qe) = some r) :
    ∃ sStart eStart eLen,
      sStart + eStart + eLen ≤ text.length ∧
      r = normalizeWhitespaceL ((text.take (sStart + eStart + eLen)).drop sStart) ∧
      matchLen (patternOf qe) (text.drop (sStart + eStart)) = some eLen ∧
      (∃ m, matchLen (patternOf qs) (text.drop sStart) = some m) ∧
      ((text.take (sStart + eStart + eLen)).drop sStart).length ≤ 500 :=
  extractQuote_spec h

/-- Closed instantiation of the C5 amended theorem at the Ishmael example. -/
theorem extractQuote_slice_c5_witness :
    ∃ sStart eStart eLen,
      sStart + eStart + eLen ≤ ("Call me Ishmael. Some years ago.".data).length ∧
      "Call me Ishmael. Some years ago".data =
        normalizeWhitespaceL ((("Call me Ishmael. Some years ago.".data).take
          (sStart + eStart + eLen)).drop sStart) ∧
      matchLen (patternOf ("years ago".data))
        (("Call me Ishmael. Some years ago.".data).drop (sStart + eStart)) = some eLen ∧
      (∃ m, matchLen (patternOf ("Call me".data))
        (("Call me Ishmael. Some years ago.".data).drop sStart) = some m) ∧
      ((("Call me Ishmael. Some years ago.".data).take
        (sStart + eStart + eLen)).drop sStart).length ≤ 500 :=
  extractQuote_slice_c5 ("Call me Ishmael. Some years ago.".data) ("Call me".data)
    ("years ago".data) ("Call me Ishmael. Some years ago".data) (by decide)

/-- C8: the label normalizer — lowercase, trim, strip characters that are
neither word characters, whitespace nor hyphen, collapse whitespace runs,
final trim — is idempotent: normalizing twice equals normalizing once, for
every string. -/
theorem normalizeLabel_idempotent_c8 (s : String) :
    normalizeLabel (normalizeLabel s) = normalizeLabel s :=
  normalizeLabel_idem_str s

/-- Closed instantiation of the C10 theorem at the concrete operations. -/
theorem autoCreate_unique_per_label_c10_witness :
    (autoCreate opsC9).creates.take opsC9.creates.length = opsC9.creates ∧
    List.Nodup (((autoCreate opsC9).creates.drop opsC9.creates.length).map
      (fun a => a.label)) ∧
    (∀ a ∈ (autoCreate opsC9).creates.drop opsC9.creates.length,
      a.entity_type = "entity" ∧ a.description = none ∧ a.properties = none ∧
      (∃ l ∈ collectReferencedLabels opsC9, a.label = normalizeLabel l) ∧
      a.label = normalizeLabel a.label ∧
      (∀ c ∈ opsC9.creates, normalizeLabel c.label ≠ a.label)) :=
  autoCreate_unique_per_label_c10 opsC9
